import Mathlib

/-!
# Verification model of the varb-calcrator engine

This file embeds the calculator engine of `src/lib/calculator.ts` (the
`Calculator` class) as pure Lean functions over an explicit state record,
together with a model of the parenthesis-aware expression evaluator that the
specification describes (its implementation is missing from the provided
sources; only its caller `handleParenthesis` in
`src/components/calculator/Calculator.tsx` is present).

Modelling conventions:
* TypeScript strings are modelled as `List Char`; `s.includes(c)` becomes
  list membership, `s.slice(0, -1)` becomes `List.dropLast`, string
  concatenation becomes list append.
* JavaScript numbers are modelled as exact rationals; IEEE-754 rounding is
  not modelled.  `NaN` is modelled by `Option ℚ` with `none` for `NaN`
  (every arithmetic operation propagates `none`, and `x === 0` is
  `x = some 0`, which is false for `NaN`, as in JavaScript).
* `Number.prototype.toString` is modelled by exact decimal printing with
  the fractional expansion truncated after 17 digits (JavaScript prints the
  shortest round-tripping decimal of the IEEE double; the exact digit
  strings agree on the short terminating decimals produced in this
  development).  JavaScript never prints a redundant leading zero and never
  prints two decimal points, and neither does the model.
* `Date.now()` is modelled by an explicit timestamp argument.
-/

/-! ## Data model (`ExpressionToken`, `HistoryItem`, `SavedVariable`) -/

/-- Colour palette of `VariableColor` in `src/lib/calculator.ts`. -/
inductive VariableColor where
  | red | yellow | blue | orange | green | white
deriving DecidableEq, Repr

/-- Operation union type `'+' | '-' | '×' | '÷'`. -/
inductive Operation where
  | add | sub | mul | div
deriving DecidableEq, Repr

/-- Display symbol of an operation (the literal union value in the source). -/
def opSymbol : Operation → List Char
  | .add => ['+']
  | .sub => ['-']
  | .mul => ['×']
  | .div => ['÷']

/-- Token kind tag: `type: 'operand' | 'operator'`. -/
inductive TokenType where
  | operand | operator
deriving DecidableEq, Repr

/-- Mirror of the `ExpressionToken` interface. -/
structure ExpressionToken where
  type : TokenType
  value : List Char
  label : Option String := none
  unit : Option String := none
  id : Option String := none
  numberLabel : Option (List Char) := none
  nameLabel : Option String := none
  color : Option VariableColor := none
deriving DecidableEq, Repr

/-- Mirror of the `HistoryItem` interface. -/
structure HistoryItem where
  expressionTokens : List ExpressionToken
  result : List Char
deriving DecidableEq, Repr

/-- Mirror of the `SavedVariable` interface (timestamp from `Date.now()`). -/
structure SavedVariable where
  label : String
  value : List Char
  unit : Option String := none
  timestamp : ℕ := 0
  color : Option VariableColor := none
deriving DecidableEq, Repr

/-- State record of the `Calculator` class: one field per private member. -/
structure CalcState where
  currentValue : List Char := ['0']
  currentLabel : Option String := none
  currentUnit : Option String := none
  currentColor : Option VariableColor := none
  previousValue : Option (List Char) := none
  previousLabel : Option String := none
  previousUnit : Option String := none
  previousColor : Option VariableColor := none
  operation : Option Operation := none
  shouldResetScreen : Bool := false
  history : List HistoryItem := []
  varStore : List SavedVariable := []
  lastExpressionTokens : Option (List ExpressionToken) := none
  inputHistory : List ExpressionToken := []
  isIntermediateResult : Bool := false
deriving DecidableEq, Repr

/-- Initial state: the field initialisers of the class. -/
def initState : CalcState := {}

/-! ## Number parsing and printing helpers -/

/-- Character of a decimal digit (`d % 10` guards the ASCII computation). -/
def digitChar (d : ℕ) : Char := Char.ofNat (48 + d % 10)

/-- Fuelled digit expansion of a natural number, most significant first. -/
def natDigitsAux : ℕ → ℕ → List Char
  | 0, _ => []
  | fuel + 1, n =>
      if n < 10 then [digitChar n]
      else natDigitsAux fuel (n / 10) ++ [digitChar (n % 10)]

/-- Decimal digit string of a natural number (`(123).toString()` = `"123"`). -/
def strNat (n : ℕ) : List Char := natDigitsAux (n + 1) n

/-! ### Kernel-computable rational arithmetic

The `Rat` arithmetic of the ambient library is marked irreducible, so the
model computes through `Rat.divInt`, which normalizes; each operation below
is the ordinary field operation on rationals, written out on numerator and
denominator. -/

/-- Rational addition via cross multiplication. -/
def rAdd (a b : ℚ) : ℚ :=
  Rat.divInt (a.num * (b.den : ℤ) + b.num * (a.den : ℤ)) ((a.den : ℤ) * (b.den : ℤ))

/-- Rational subtraction via cross multiplication. -/
def rSub (a b : ℚ) : ℚ :=
  Rat.divInt (a.num * (b.den : ℤ) - b.num * (a.den : ℤ)) ((a.den : ℤ) * (b.den : ℤ))

/-- Rational multiplication. -/
def rMul (a b : ℚ) : ℚ := Rat.divInt (a.num * b.num) ((a.den : ℤ) * (b.den : ℤ))

/-- Rational division (zero divisor yields zero, as in `Rat.divInt`; every
use in the model is guarded against a zero divisor). -/
def rDiv (a b : ℚ) : ℚ := Rat.divInt (a.num * (b.den : ℤ)) ((a.den : ℤ) * b.num)

/-- Absolute value. -/
def rAbs (a : ℚ) : ℚ := Rat.divInt (a.num.natAbs : ℤ) (a.den : ℤ)

/-- Floor as an integer (the denominator is positive). -/
def rFloorZ (a : ℚ) : ℤ := a.num.fdiv (a.den : ℤ)

/-- Order comparison via cross multiplication (denominators are positive). -/
def rLe (a b : ℚ) : Prop := a.num * (b.den : ℤ) ≤ b.num * (a.den : ℤ)

instance (a b : ℚ) : Decidable (rLe a b) := by unfold rLe; infer_instance

/-- Integer power of ten as a rational. -/
def pow10Z (k : ℤ) : ℚ :=
  if 0 ≤ k then Rat.divInt ((10 : ℤ) ^ k.toNat) 1
  else Rat.divInt 1 ((10 : ℤ) ^ (-k).toNat)

/-- Round half up: the floor of `a + 1/2`. -/
def rRound (a : ℚ) : ℤ := (2 * a.num + (a.den : ℤ)).fdiv (2 * (a.den : ℤ))

/-- Fractional decimal digits of a rational in `[0, 1)`, by repeated
multiplication by ten, stopping at remainder zero or after `fuel` digits. -/
def fracDigits : ℕ → ℚ → List Char
  | 0, _ => []
  | fuel + 1, r =>
      if r.num = 0 then []
      else
        let r10 := Rat.divInt (r.num * 10) (r.den : ℤ)
        let d := rFloorZ r10
        digitChar d.toNat :: fracDigits fuel (Rat.divInt (r10.num - d * (r10.den : ℤ)) (r10.den : ℤ))

/-- Model of `Number.prototype.toString` on a (non-`NaN`) numeric value. -/
def ratToString (q : ℚ) : List Char :=
  if q.num = 0 then ['0']
  else
    let sign : List Char := if q.num < 0 then ['-'] else []
    let a : ℚ := rAbs q
    let ip : ℕ := (rFloorZ a).toNat
    let fd : List Char := fracDigits 17 (Rat.divInt (a.num - rFloorZ a * (a.den : ℤ)) (a.den : ℤ))
    sign ++ strNat ip ++ (if fd = [] then [] else '.' :: fd)

/-- Model of `toString` on a JavaScript number (`none` is `NaN`). -/
def jsToString : Option ℚ → List Char
  | none => "NaN".toList
  | some q => ratToString q

/-- Model of `parseFloat`: optional sign, integer digits, optional fraction,
optional exponent; `none` when no digits are found (JavaScript `NaN`). -/
def parseFloat (s : List Char) : Option ℚ :=
  let s0 := s.dropWhile Char.isWhitespace
  let (sgn, s1) : ℤ × List Char :=
    match s0 with
    | '-' :: rest => (-1, rest)
    | '+' :: rest => (1, rest)
    | _ => (1, s0)
  let intPart := s1.takeWhile Char.isDigit
  let s2 := s1.dropWhile Char.isDigit
  let (fracPart, s3) : List Char × List Char :=
    match s2 with
    | '.' :: rest => (rest.takeWhile Char.isDigit, rest.dropWhile Char.isDigit)
    | _ => ([], s2)
  if intPart = [] ∧ fracPart = [] then none
  else
    let digitsToNat : List Char → ℕ :=
      fun l => l.foldl (fun acc c => acc * 10 + (c.toNat - 48)) 0
    let mantissaNum : ℤ :=
      (digitsToNat intPart : ℤ) * (10 : ℤ) ^ fracPart.length + (digitsToNat fracPart : ℤ)
    let expVal : ℤ :=
      match s3 with
      | 'e' :: rest | 'E' :: rest =>
          let (esgn, r1) : ℤ × List Char :=
            match rest with
            | '-' :: r => (-1, r)
            | '+' :: r => (1, r)
            | _ => (1, rest)
          let ed := r1.takeWhile Char.isDigit
          if ed = [] then 0 else esgn * (digitsToNat ed : ℤ)
      | _ => 0
    some (if 0 ≤ expVal then
            Rat.divInt (sgn * mantissaNum * (10 : ℤ) ^ expVal.toNat) ((10 : ℤ) ^ fracPart.length)
          else
            Rat.divInt (sgn * mantissaNum) ((10 : ℤ) ^ fracPart.length * (10 : ℤ) ^ (-expVal).toNat))

/-- JavaScript addition lifted to the `NaN`-aware number model. -/
def jsAdd : Option ℚ → Option ℚ → Option ℚ
  | some a, some b => some (rAdd a b)
  | _, _ => none

/-- JavaScript subtraction lifted to the `NaN`-aware number model. -/
def jsSub : Option ℚ → Option ℚ → Option ℚ
  | some a, some b => some (rSub a b)
  | _, _ => none

/-- JavaScript multiplication lifted to the `NaN`-aware number model. -/
def jsMul : Option ℚ → Option ℚ → Option ℚ
  | some a, some b => some (rMul a b)
  | _, _ => none

/-- JavaScript division lifted to the `NaN`-aware number model (the engine
checks for a zero divisor before dividing, so the zero case is unreachable
in the embedded code paths). -/
def jsDiv : Option ℚ → Option ℚ → Option ℚ
  | some a, some b => some (rDiv a b)
  | _, _ => none

/-- Floor of the base-ten logarithm of a positive rational, computed from
digit counts of numerator and denominator (used only for the exponent of
exponential notation). -/
def floorLog10 (a : ℚ) : ℤ :=
  let c : ℤ := (strNat a.num.natAbs).length - (strNat a.den).length
  if rLe (pow10Z (c + 1)) a then c + 1
  else if rLe (pow10Z c) a then c
  else c - 1

/-- Rendering of a sign, mantissa digits and exponent in exponential
notation: one leading digit, a decimal point, six fractional digits
(zero-padded), then `e` and the signed exponent. -/
def expString (sg : List Char) (pr : ℤ × ℤ) : List Char :=
  match strNat pr.1.toNat with
  | [] => []
  | d :: rest =>
      sg ++ d :: '.' :: (rest ++ List.replicate (6 - rest.length) '0')
        ++ 'e' :: (if pr.2 ≥ 0 then '+' :: strNat pr.2.toNat
                   else '-' :: strNat (-pr.2).toNat)

/-- Model of `Number.prototype.toExponential(6)`: mantissa digits are the
rounding of `|q| / 10 ^ (k - 6)` for `k` the floor logarithm, with a
carried decade when rounding overflows seven digits. -/
def toExponential6 : Option ℚ → List Char
  | none => "NaN".toList
  | some q =>
      if q.num = 0 then "0.000000e+0".toList
      else
        expString (if q.num < 0 then ['-'] else [])
          (if rRound (rMul (rAbs q) (pow10Z ((6 : ℤ) - floorLog10 (rAbs q)))) ≥ 10 ^ 7
           then (rRound (rMul (rAbs q) (pow10Z ((6 : ℤ) - floorLog10 (rAbs q)))) / 10,
                 floorLog10 (rAbs q) + 1)
           else (rRound (rMul (rAbs q) (pow10Z ((6 : ℤ) - floorLog10 (rAbs q)))),
                 floorLog10 (rAbs q)))

/-- Mirror of `formatResult`: plain `toString`, falling back to
`toExponential(6)` when the plain form is longer than twelve characters. -/
def formatResult (x : Option ℚ) : List Char :=
  let str := jsToString x
  if str.length > 12 then toExponential6 x else str

/-! ## Display formatting (`formatNumber` and the grouping regex) -/

/-- Word character of the JavaScript regex class `\w` (`[A-Za-z0-9_]`). -/
def isWordChar (c : Char) : Bool := c.isAlphanum || c = '_'

/-- Length of the maximal digit run at the head of a character list. -/
def runLen : List Char → ℕ
  | [] => 0
  | c :: cs => if c.isDigit then runLen cs + 1 else 0

/-- Semantics of the grouping regex replace
`replace(/\B(?=(\d{3})+(?!\d))/g, ",")` on `parts[0]` of `formatNumber`:
a comma is inserted before every character that is a digit, is preceded by a
word character (the `\B` condition at a digit position), and starts a digit
run whose length is a positive multiple of three (the
`(?=(\d{3})+(?!\d))` lookahead).  The boolean argument records whether the
previous character exists and is a word character. -/
def grp : Bool → List Char → List Char
  | _, [] => []
  | prevWord, c :: cs =>
      if prevWord ∧ c.isDigit ∧ runLen (c :: cs) % 3 = 0
      then ',' :: c :: grp (isWordChar c) cs
      else c :: grp (isWordChar c) cs

/-- Model of `String.prototype.split('.')`. -/
def splitDot : List Char → List (List Char)
  | [] => [[]]
  | c :: cs =>
      if c = '.' then [] :: splitDot cs
      else
        match splitDot cs with
        | [] => [[c]]
        | p :: ps => (c :: p) :: ps

/-- Model of `Array.prototype.join('.')`. -/
def interDot : List (List Char) → List Char
  | [] => []
  | [p] => p
  | p :: ps => p ++ '.' :: interDot ps

/-- Mirror of `formatNumber`: empty for a falsy value, verbatim for
exponential notation, otherwise thousands-group the part before the first
decimal point and rejoin. -/
def formatNumber (value : List Char) : List Char :=
  if value = [] then []
  else if ('e' ∈ value) ∨ ('E' ∈ value) then value
  else
    match splitDot value with
    | [] => []
    | p :: ps => interDot (grp false p :: ps)

/-- Mirror of `formatNumberLabel` (`unit` falsy means no suffix). -/
def formatNumberLabel (value : List Char) (unit : Option String) : List Char :=
  let formattedValue := formatNumber value
  match unit with
  | some u => if u = "" then formattedValue else formattedValue ++ ' ' :: u.toList
  | none => formattedValue

/-- Mirror of `formatNameLabel`: the label alone, `undefined` when falsy. -/
def formatNameLabel (label : Option String) (_unit : Option String) : Option String :=
  match label with
  | some l => if l = "" then none else some l
  | none => none

/-- The JavaScript coercion `x || undefined` on an optional string
(`null` and the empty string are falsy). -/
def orUndef : Option String → Option String
  | some s => if s = "" then none else some s
  | none => none

/-! ## Engine operations (methods of the `Calculator` class) -/

/-- Operand token built from the current edit buffer, as pushed by
`setOperation` and `calculate`. -/
def operandTokenOf (s : CalcState) : ExpressionToken :=
  { type := .operand
    value := s.currentValue
    label := orUndef s.currentLabel
    unit := orUndef s.currentUnit
    numberLabel := some (formatNumberLabel s.currentValue s.currentUnit)
    nameLabel := formatNameLabel s.currentLabel s.currentUnit
    color := s.currentColor }

/-- Mirror of `inputDigit` (the parameter is a string in the source, and is
passed whole-string by `inputVariable`). -/
def inputDigit (digit : List Char) (s : CalcState) : CalcState :=
  if s.currentValue = ['0'] ∧ digit = ['0'] then s
  else if s.shouldResetScreen then
    { s with currentValue := digit, currentLabel := none, currentUnit := none,
             currentColor := none, shouldResetScreen := false,
             isIntermediateResult := false }
  else if s.currentValue = ['0'] ∧ digit ≠ ['.'] then
    { s with currentValue := digit }
  else if digit = ['.'] ∧ '.' ∈ s.currentValue then s
  else { s with currentValue := s.currentValue ++ digit, currentLabel := none }

/-- Mirror of `inputDot`. -/
def inputDot (s : CalcState) : CalcState :=
  if '.' ∉ s.currentValue then
    { s with currentValue := s.currentValue ++ ['.'], shouldResetScreen := false }
  else s

/-- Mirror of `handleError`. -/
def handleError (s : CalcState) : CalcState :=
  { s with currentValue := "Error".toList, previousValue := none,
           operation := none, shouldResetScreen := true }

/-- Mirror of `calculateIntermediate` (chain evaluation on operator press). -/
def calculateIntermediate (s : CalcState) : CalcState :=
  match s.previousValue, s.operation with
  | some pv, some op =>
      let current := parseFloat s.currentValue
      let previous := parseFloat pv
      let finish : Option ℚ → CalcState := fun result =>
        { s with currentValue := formatResult result, currentLabel := none,
                 currentUnit := none, isIntermediateResult := true }
      match op with
      | .add => finish (jsAdd previous current)
      | .sub => finish (jsSub previous current)
      | .mul => finish (jsMul previous current)
      | .div =>
          if current = some 0 then handleError s
          else finish (jsDiv previous current)
  | _, _ => s

/-- Mirror of `setOperation`. -/
def setOperation (op : Operation) (s : CalcState) : CalcState :=
  let isStartingNewCalculation := s.shouldResetScreen && s.operation.isNone
  let hasTypedNewValue := !s.shouldResetScreen
  let s1 :=
    if hasTypedNewValue || isStartingNewCalculation then
      { s with inputHistory := s.inputHistory ++ [operandTokenOf s] }
    else s
  let s2 :=
    if s.operation.isSome && !s.shouldResetScreen then calculateIntermediate s1
    else s1
  let s3 :=
    if hasTypedNewValue || isStartingNewCalculation then
      { s2 with inputHistory :=
          s2.inputHistory ++ [{ type := .operator, value := opSymbol op }] }
    else s2
  { s3 with previousValue := some s3.currentValue,
            previousLabel := s3.currentLabel,
            previousUnit := s3.currentUnit,
            previousColor := s3.currentColor,
            operation := some op,
            shouldResetScreen := true }

/-- Mirror of the history insertion in `calculate`: `unshift` followed by a
`pop` when the length exceeds fifty. -/
def capPush (item : HistoryItem) (h : List HistoryItem) : List HistoryItem :=
  let h2 := item :: h
  if h2.length > 50 then h2.dropLast else h2

/-- The trailing-operator removal at the head of the `shouldResetScreen`
branch of `calculate`. -/
def trimmedTokens (s : CalcState) : List ExpressionToken :=
  match s.inputHistory.getLast? with
  | some t => if t.type = .operator then s.inputHistory.dropLast else s.inputHistory
  | none => s.inputHistory

/-- Mirror of `calculate`. -/
def calculate (s : CalcState) : CalcState :=
  match s.previousValue, s.operation with
  | some pv, some op =>
      if s.shouldResetScreen then
        { s with history := capPush ⟨trimmedTokens s, s.currentValue⟩ s.history,
                 inputHistory := [],
                 operation := none, previousValue := none,
                 previousLabel := none, previousUnit := none,
                 shouldResetScreen := true, isIntermediateResult := false }
      else
        let s1 := { s with inputHistory := s.inputHistory ++ [operandTokenOf s] }
        let current := parseFloat s.currentValue
        let previous := parseFloat pv
        let finish : Option ℚ → CalcState := fun result =>
          let resultString := formatResult result
          { s1 with history := capPush ⟨s1.inputHistory, resultString⟩ s1.history,
                    inputHistory := [],
                    currentValue := resultString,
                    currentLabel := none, currentUnit := none, currentColor := none,
                    operation := none, previousValue := none, previousLabel := none,
                    previousUnit := none, previousColor := none,
                    shouldResetScreen := true, isIntermediateResult := false }
        match op with
        | .add => finish (jsAdd previous current)
        | .sub => finish (jsSub previous current)
        | .mul => finish (jsMul previous current)
        | .div =>
            if current = some 0 then handleError s1
            else finish (jsDiv previous current)
  | _, _ => s

/-- Mirror of `clear` (history and variable stores are untouched). -/
def clear (s : CalcState) : CalcState :=
  { s with currentValue := ['0'], currentLabel := none, currentUnit := none,
           previousValue := none, previousLabel := none, previousUnit := none,
           operation := none, shouldResetScreen := false,
           lastExpressionTokens := none, inputHistory := [],
           isIntermediateResult := false, currentColor := none,
           previousColor := none }

/-- Mirror of `delete` (backspace). -/
def deleteChar (s : CalcState) : CalcState :=
  if s.shouldResetScreen then s
  else if s.currentValue.length = 1 then { s with currentValue := ['0'] }
  else { s with currentValue := s.currentValue.dropLast }

/-- Mirror of `toggleSign`. -/
def toggleSign (s : CalcState) : CalcState :=
  let value := parseFloat s.currentValue
  if value = some 0 then s
  else { s with currentValue := jsToString (jsMul value (some (Rat.divInt (-1) 1))) }

/-- Mirror of `percentage`. -/
def percentage (s : CalcState) : CalcState :=
  let value := parseFloat s.currentValue
  { s with currentValue := jsToString (jsDiv value (some (Rat.divInt 100 1))) }

/-- Target selector of `setLabel` and `setUnit`. -/
inductive EditTarget where
  | current | previous
deriving DecidableEq, Repr

/-- Backward scan of the source `for` loops in `setLabel` and `setUnit`:
update the last operand token and stop. -/
def updateLastOperand (f : ExpressionToken → ExpressionToken)
    (ts : List ExpressionToken) : List ExpressionToken :=
  let go : List ExpressionToken → List ExpressionToken :=
    fun l =>
      match l with
      | [] => []
      | t :: rest => if t.type = .operand then f t :: rest else t :: goAux rest
  go ts.reverse |>.reverse
where
  goAux : List ExpressionToken → List ExpressionToken
    | [] => []
    | t :: rest => if t.type = .operand then f t :: rest else t :: goAux rest

/-- Mirror of `setLabel` (the outer `Option` on `color` models an omitted
argument, the inner `Option` models `null`). -/
def setLabel (target : EditTarget) (label : String)
    (color : Option (Option VariableColor)) (s : CalcState) : CalcState :=
  match target with
  | .current =>
      { s with currentLabel := some label,
               currentColor := match color with | some c => c | none => s.currentColor }
  | .previous =>
      let s1 :=
        { s with previousLabel := some label,
                 previousColor := match color with | some c => c | none => s.previousColor }
      { s1 with inputHistory :=
          updateLastOperand (fun t =>
            let t1 := { t with label := some label,
                               nameLabel := formatNameLabel (some label) (orUndef t.unit) }
            match color with
            | some c => { t1 with color := c }
            | none => t1) s1.inputHistory }

/-- Mirror of `setUnit`. -/
def setUnit (target : EditTarget) (unit : Option String) (s : CalcState) : CalcState :=
  match target with
  | .current => { s with currentUnit := unit }
  | .previous =>
      let s1 := { s with previousUnit := unit }
      { s1 with inputHistory :=
          updateLastOperand (fun t =>
            { t with unit := orUndef unit,
                     numberLabel := some (formatNumberLabel t.value unit),
                     nameLabel := formatNameLabel (orUndef t.label) unit }) s1.inputHistory }

/-- Indexing of `this.history[index]` with a JavaScript number index:
out-of-range and negative indices give `undefined`. -/
def historyGet (h : List HistoryItem) (index : ℤ) : Option HistoryItem :=
  if hl : 0 ≤ index ∧ index.toNat < h.length then some (h.get ⟨index.toNat, hl.2⟩)
  else none

/-- The object spread `{...t}` of `loadFromHistory`: a fresh token with the
same fields. -/
def copyToken (t : ExpressionToken) : ExpressionToken :=
  { type := t.type, value := t.value, label := t.label, unit := t.unit,
    id := t.id, numberLabel := t.numberLabel, nameLabel := t.nameLabel,
    color := t.color }

/-- Mirror of `loadFromHistory`. -/
def loadFromHistory (index : ℤ) (s : CalcState) : CalcState :=
  match historyGet s.history index with
  | none => s
  | some item =>
      let c := clear s
      { c with inputHistory := item.expressionTokens.map copyToken,
               currentValue := item.result,
               shouldResetScreen := true }

/-- Mirror of `getDisplayValue`. -/
def getDisplayValue (s : CalcState) : List Char := formatNumber s.currentValue

/-- Mirror of `Array.prototype.findIndex`. -/
def jsFindIndex (p : SavedVariable → Bool) : List SavedVariable → Option ℕ
  | [] => none
  | v :: vs =>
      if p v then some 0
      else match jsFindIndex p vs with
           | some i => some (i + 1)
           | none => none

/-- Stable insertion of a variable into a list sorted by descending
timestamp (an element is placed after all entries with a timestamp at least
as large, matching the stable `sort((a, b) => b.timestamp - a.timestamp)`). -/
def insertVar (x : SavedVariable) : List SavedVariable → List SavedVariable
  | [] => [x]
  | y :: ys => if y.timestamp < x.timestamp then x :: y :: ys else y :: insertVar x ys

/-- Model of the stable `Array.prototype.sort` by descending timestamp. -/
def sortVars : List SavedVariable → List SavedVariable
  | [] => []
  | x :: xs => insertVar x (sortVars xs)

/-- Mirror of `saveVariable` (`now` models `Date.now()`). -/
def saveVariable (label : String) (value : List Char) (unit : Option String)
    (color : Option VariableColor) (now : ℕ) (s : CalcState) : CalcState :=
  let newVar : SavedVariable :=
    { label := label, value := value, unit := unit, timestamp := now, color := color }
  let vars :=
    match jsFindIndex (fun v => v.label = label) s.varStore with
    | some i => s.varStore.set i newVar
    | none => s.varStore ++ [newVar]
  { s with varStore := sortVars vars }

/-- Mirror of `deleteVariable`. -/
def deleteVariable (label : String) (s : CalcState) : CalcState :=
  { s with varStore := s.varStore.filter (fun v => v.label ≠ label) }

/-- Mirror of `inputVariable` (the argument is an arbitrary
`SavedVariable`, as in the source signature). -/
def inputVariable (v : SavedVariable) (s : CalcState) : CalcState :=
  let s1 := inputDigit v.value s
  { s1 with currentValue := v.value,
            currentLabel := some v.label,
            currentUnit := orUndef v.unit,
            currentColor := v.color,
            shouldResetScreen := false }

/-! ## Public action machine -/

/-- One public action of the engine, with its arguments. -/
inductive CalcAction where
  | inputDigit (d : List Char)
  | inputDot
  | setOperation (op : Operation)
  | calculate
  | clear
  | deleteChar
  | toggleSign
  | percentage
  | setLabel (target : EditTarget) (label : String) (color : Option (Option VariableColor))
  | setUnit (target : EditTarget) (unit : Option String)
  | loadFromHistory (index : ℤ)
  | saveVariable (label : String) (value : List Char) (unit : Option String)
      (color : Option VariableColor) (now : ℕ)
  | deleteVariable (label : String)
  | inputVariable (v : SavedVariable)
deriving DecidableEq, Repr

/-- Interpretation of one public action on the engine state. -/
def stepAction (a : CalcAction) (s : CalcState) : CalcState :=
  match a with
  | .inputDigit d => inputDigit d s
  | .inputDot => inputDot s
  | .setOperation op => setOperation op s
  | .calculate => calculate s
  | .clear => clear s
  | .deleteChar => deleteChar s
  | .toggleSign => toggleSign s
  | .percentage => percentage s
  | .setLabel t l c => setLabel t l c s
  | .setUnit t u => setUnit t u s
  | .loadFromHistory i => loadFromHistory i s
  | .saveVariable l v u c n => saveVariable l v u c n s
  | .deleteVariable l => deleteVariable l s
  | .inputVariable v => inputVariable v s

/-- Run of a list of public actions from a state. -/
def runFrom (s : CalcState) (acts : List CalcAction) : CalcState :=
  acts.foldl (fun st a => stepAction a st) s

/-- Run of a list of public actions from the initial state. -/
def run (acts : List CalcAction) : CalcState := runFrom initState acts

/-! ## Spec-modelled parenthesis-aware engine

The repository's UI (`handleParenthesis` in
`src/components/calculator/Calculator.tsx`) calls
`calculator.inputParenthesis`, and the specification describes a
shunting-yard expression evaluator over a committed token sequence with
grouping tokens; neither `inputParenthesis` nor that evaluator appears in
the provided `src/lib/calculator.ts`.  The definitions in this namespace
model that missing code from the specification (sections 4.2 and 4.3). -/

namespace SpecModel

/-- Modelled from the spec: a token of the committed sequence — Operand
(carrying its parsed numeric value), Operator, or a Grouping mark. -/
inductive GToken where
  | num (q : ℚ)
  | op (o : Operation)
  | lparen
  | rparen
deriving DecidableEq, Repr

/-- Modelled from the spec: operator precedence — plus and minus bind at
one, times and divide at two. -/
def prec : Operation → ℕ
  | .add => 1
  | .sub => 1
  | .mul => 2
  | .div => 2

/-- Pop operators with precedence at least `p` from the operator stack
(ties pop: left associativity), returning the popped operators in order and
the remaining stack. -/
def popGE (p : ℕ) : List GToken → List GToken × List GToken
  | GToken.op o :: rest =>
      if prec o ≥ p then
        let pr := popGE p rest
        (GToken.op o :: pr.1, pr.2)
      else ([], GToken.op o :: rest)
  | st => ([], st)

/-- Pop operators until a grouping-open mark, discarding the mark; when the
stack has no grouping-open, everything is popped (spec section 4.2 step 5:
mismatched close marks stop quietly). -/
def popToParen : List GToken → List GToken × List GToken
  | [] => ([], [])
  | GToken.lparen :: rest => ([], rest)
  | t :: rest =>
      let pr := popToParen rest
      (t :: pr.1, pr.2)

/-- Modelled from the spec: the shunting-yard scan (section 4.2 steps 1-6)
with an output queue and an operator stack; at the end of input the
remaining operators are popped and grouping marks are discarded. -/
def shuntAux : List GToken → List GToken → List GToken → List GToken
  | [], stack, out =>
      out ++ stack.filter (fun t => match t with | GToken.op _ => true | _ => false)
  | GToken.num q :: ts, stack, out => shuntAux ts stack (out ++ [GToken.num q])
  | GToken.op o :: ts, stack, out =>
      let pr := popGE (prec o) stack
      shuntAux ts (GToken.op o :: pr.2) (out ++ pr.1)
  | GToken.lparen :: ts, stack, out => shuntAux ts (GToken.lparen :: stack) out
  | GToken.rparen :: ts, stack, out =>
      let pr := popToParen stack
      shuntAux ts pr.2 (out ++ pr.1)

/-- Application of one binary operator; division by zero fails. -/
def applyOp (o : Operation) (a b : ℚ) : Option ℚ :=
  match o with
  | .add => some (rAdd a b)
  | .sub => some (rSub a b)
  | .mul => some (rMul a b)
  | .div => if b.num = 0 then none else some (rDiv a b)

/-- Modelled from the spec: RPN evaluation over a value stack (section 4.2
step 7).  An operator pops the right operand first; stack underflow fails;
an empty output queue evaluates to zero. -/
def evalRPN : List GToken → List ℚ → Option ℚ
  | [], [] => some 0
  | [], v :: _ => some v
  | GToken.num q :: ts, stk => evalRPN ts (q :: stk)
  | GToken.op o :: ts, b :: a :: stk =>
      match applyOp o a b with
      | some v => evalRPN ts (v :: stk)
      | none => none
  | GToken.op _ :: _, _ => none
  | GToken.lparen :: _, _ => none
  | GToken.rparen :: _, _ => none

/-- Modelled from the spec: the full expression evaluator — shunting-yard
reordering followed by RPN evaluation. -/
def shuntEval (ts : List GToken) : Option ℚ :=
  evalRPN (shuntAux ts [] []) []

/-- State of the spec-modelled parenthesis-aware input machine: edit
buffer, reset flag, committed token sequence, history of
(tokens, result) snapshots. -/
structure MState where
  buffer : List Char := ['0']
  shouldReset : Bool := false
  committed : List GToken := []
  history : List (List GToken × List Char) := []
deriving DecidableEq, Repr

/-- Commit the edit buffer to the committed sequence as an Operand token
(the spec stores the operand's numeric text; the model stores its parsed
value, and the buffer text is always canonical numeric text). -/
def commitBuf (s : MState) : MState :=
  { s with committed := s.committed ++ [GToken.num ((parseFloat s.buffer).getD 0)] }

/-- Modelled from the spec: digit entry (section 4.3), with the leading
zero suppressed as required by the buffer invariant of section 3. -/
def inputDigit (c : Char) (s : MState) : MState :=
  if s.buffer = ['0'] ∧ c = '0' then s
  else if s.shouldReset then { s with buffer := [c], shouldReset := false }
  else if s.buffer = ['0'] ∧ c ≠ '.' then { s with buffer := [c] }
  else if c = '.' ∧ '.' ∈ s.buffer then s
  else { s with buffer := s.buffer ++ [c] }

/-- Modelled from the spec: the Operator transition of section 4.3 — commit
a mid-edit buffer (or a fresh-start result over an empty committed
sequence), then either replace a trailing Operator token or append the new
one, and await the next operand. -/
def setOp (o : Operation) (s : MState) : MState :=
  let s1 :=
    if !s.shouldReset then commitBuf s
    else if s.committed = [] then commitBuf s
    else s
  let s2 :=
    match s1.committed.getLast? with
    | some (GToken.op _) => { s1 with committed := s1.committed.dropLast ++ [GToken.op o] }
    | _ => { s1 with committed := s1.committed ++ [GToken.op o] }
  { s2 with shouldReset := true }

/-- Modelled from the spec: the missing `inputParenthesis` on an open mark —
implicit multiplication when the buffer holds a typed, non-reset,
non-empty, non-zero value, then the open-grouping token is appended. -/
def inputParenOpen (s : MState) : MState :=
  if !s.shouldReset ∧ s.buffer ≠ [] ∧ s.buffer ≠ ['0'] then
    let s1 := setOp Operation.mul s
    { s1 with committed := s1.committed ++ [GToken.lparen] }
  else { s with committed := s.committed ++ [GToken.lparen] }

/-- Modelled from the spec: the missing `inputParenthesis` on a close mark —
commit a mid-edit buffer, append the close-grouping token, await an
operand. -/
def inputParenClose (s : MState) : MState :=
  let s1 := if !s.shouldReset then commitBuf s else s
  { s1 with committed := s1.committed ++ [GToken.rparen], shouldReset := true }

/-- Modelled from the spec: the Calculate transition of section 4.3 —
commit a mid-edit buffer, no-op on an empty committed sequence, then
evaluate; success stores a history snapshot and puts the formatted result
in the buffer, failure enters the Error state. -/
def calcM (s : MState) : MState :=
  let s1 := if !s.shouldReset then commitBuf s else s
  if s1.committed = [] then s1
  else
    match shuntEval s1.committed with
    | some v =>
        let resultString := formatResult (some v)
        { buffer := resultString, shouldReset := true, committed := [],
          history := (s1.committed, resultString) :: s1.history }
    | none =>
        { buffer := "Error".toList, shouldReset := true, committed := [],
          history := s1.history }

/-- One public action of the spec-modelled machine. -/
inductive MAction where
  | digit (c : Char)
  | op (o : Operation)
  | lpar
  | rpar
  | calcAct
deriving DecidableEq, Repr

/-- Interpretation of one action of the spec-modelled machine. -/
def mstep (a : MAction) (s : MState) : MState :=
  match a with
  | .digit c => inputDigit c s
  | .op o => setOp o s
  | .lpar => inputParenOpen s
  | .rpar => inputParenClose s
  | .calcAct => calcM s

/-- Run of the spec-modelled machine from its initial state. -/
def mrun (acts : List MAction) : MState :=
  acts.foldl (fun st a => mstep a st) {}

/-! ### Reference grammar for precedence correctness -/

/-- Infix expressions: literal, parenthesised group, binary node. -/
inductive AExp where
  | lit (q : ℚ)
  | grouped (e : AExp)
  | bin (l : AExp) (o : Operation) (r : AExp)
deriving DecidableEq, Repr

/-- Infix token spelling of an expression. -/
def flatA : AExp → List GToken
  | .lit q => [GToken.num q]
  | .grouped e => GToken.lparen :: flatA e ++ [GToken.rparen]
  | .bin l o r => flatA l ++ GToken.op o :: flatA r

/-- Reference semantics: evaluate the tree, failing on division by zero. -/
def evalA : AExp → Option ℚ
  | .lit q => some q
  | .grouped e => evalA e
  | .bin l o r =>
      match evalA l, evalA r with
      | some a, some b => applyOp o a b
      | _, _ => none

/-- Precedence exposed at the root (literals and groups bind tightest). -/
def rootPrec : AExp → ℕ
  | .bin _ o _ => prec o
  | _ => 3

/-- Canonical trees: the unique reading of an infix token string under
standard precedence with left associativity — a left child binds at least
as tightly as its parent, a right child strictly more tightly. -/
def canonB : AExp → Bool
  | .lit _ => true
  | .grouped e => canonB e
  | .bin l o r => canonB l && canonB r && decide (prec o ≤ rootPrec l) && decide (prec o < rootPrec r)

/-- Postfix (RPN) spelling of an expression. -/
def rpnA : AExp → List GToken
  | .lit q => [GToken.num q]
  | .grouped e => rpnA e
  | .bin l o r => rpnA l ++ rpnA r ++ [GToken.op o]

/-- Operators of an expression still pending on the stack after its infix
tokens have been scanned (its right spine, innermost first). -/
def pend : AExp → List GToken
  | .lit _ => []
  | .grouped _ => []
  | .bin _ o r => pend r ++ [GToken.op o]

/-- Output-queue tokens emitted while the infix tokens are scanned. -/
def emitA : AExp → List GToken
  | .lit q => [GToken.num q]
  | .grouped e => rpnA e
  | .bin l _ r => rpnA l ++ emitA r

/-- Safety of a stack for an incoming precedence: its top must not trigger
popping — empty, a grouping-open, or an operator binding strictly less
tightly. -/
def stackSafe (st : List GToken) (p : ℕ) : Prop :=
  match st with
  | [] => True
  | GToken.lparen :: _ => True
  | GToken.op o :: _ => prec o < p
  | _ => False

end SpecModel

/-! ## Specification predicates and ghost log -/

/-- Success of a `calculate` call: the guards pass and, in the normal flow,
the division-by-zero branch is not taken (exactly the paths that push a
history entry). -/
def calcSucceeds (s : CalcState) : Bool :=
  match s.previousValue, s.operation with
  | some _, some op =>
      if s.shouldResetScreen then true
      else if op = Operation.div ∧ parseFloat s.currentValue = some 0 then false
      else true
  | _, _ => false

/-- Result string computed by the normal flow of `calculate`. -/
def calcResultString (s : CalcState) : List Char :=
  match s.previousValue, s.operation with
  | some pv, some op =>
      let current := parseFloat s.currentValue
      let previous := parseFloat pv
      match op with
      | .add => formatResult (jsAdd previous current)
      | .sub => formatResult (jsSub previous current)
      | .mul => formatResult (jsMul previous current)
      | .div => formatResult (jsDiv previous current)
  | _, _ => []

/-- History entry pushed by a successful `calculate`. -/
def pushedItem (s : CalcState) : HistoryItem :=
  if s.shouldResetScreen then ⟨trimmedTokens s, s.currentValue⟩
  else ⟨s.inputHistory ++ [operandTokenOf s], calcResultString s⟩

/-- One step of the engine paired with an uncapped ghost log of every
history entry ever pushed, newest first. -/
def stepLog (p : CalcState × List HistoryItem) (a : CalcAction) :
    CalcState × List HistoryItem :=
  let s := stepAction a p.1
  match a with
  | .calculate => if calcSucceeds p.1 then (s, pushedItem p.1 :: p.2) else (s, p.2)
  | _ => (s, p.2)

/-- Run of the engine from the initial state together with the ghost log. -/
def runLog (acts : List CalcAction) : CalcState × List HistoryItem :=
  acts.foldl stepLog (initState, [])

/-- Absence of a redundant leading zero: the value never starts with a zero
followed by another digit. -/
def noLeadZeroB : List Char → Bool
  | c1 :: c2 :: _ => !(c1 == '0' && c2.isDigit)
  | _ => true

/-- Buffer value well-formedness of the spec invariant: at most one decimal
point, no redundant leading zero. -/
def ValOK (v : List Char) : Bool :=
  decide (v.count '.' ≤ 1) && noLeadZeroB v

/-- Strengthened induction invariant: the buffer value and every stored
history result are well-formed. -/
def BufOK (s : CalcState) : Bool :=
  ValOK s.currentValue && s.history.all (fun h => ValOK h.result)

/-- Well-formed public action: digit entry carries one digit-or-dot
character (the spec's `inputDigit` interface) and a variable fed to
`inputVariable` carries a well-formed value text. -/
def wfAction : CalcAction → Bool
  | .inputDigit d =>
      match d with
      | [c] => c.isDigit || c = '.'
      | _ => false
  | .inputVariable v => ValOK v.value
  | _ => true

/-- Descending order on saved variables used by the variable store sort. -/
def tsGE (a b : SavedVariable) : Prop := b.timestamp ≤ a.timestamp

/-! ## General list helpers -/

/-- Setting a position of a list to the value it already holds is the
identity. -/
theorem set_get_self {α : Type} : ∀ (l : List α) (i : ℕ) (a : α),
    l.get? i = some a → l.set i a = l
  | [], _, _, h => by cases h
  | x :: xs, 0, a, h => by
      simp only [List.get?] at h
      cases h
      rfl
  | x :: xs, i + 1, a, h => by
      simp only [List.get?] at h
      simp [List.set, set_get_self xs i a h]

/-- Pushing onto a capped history commutes with truncation to fifty. -/
theorem capPush_take (item : HistoryItem) (g : List HistoryItem) :
    capPush item (List.take 50 g) = List.take 50 (item :: g) := by
  unfold capPush
  by_cases hg : 50 ≤ g.length
  · have hlen : (List.take 50 g).length = 50 := by
      simp [List.length_take, Nat.min_eq_left hg]
    have hcond : (item :: List.take 50 g).length > 50 := by simp [hlen]
    rw [if_pos hcond]
    have hdl : (item :: List.take 50 g).dropLast = item :: (List.take 50 g).dropLast := by
      have : List.take 50 g ≠ [] := by
        intro hnil; rw [hnil] at hlen; simp at hlen
      cases htk : List.take 50 g with
      | nil => exact absurd htk this
      | cons y ys => simp [List.dropLast_cons₂]
    rw [hdl]
    have : (List.take 50 g).dropLast = List.take 49 g := by
      rw [List.dropLast_eq_take, hlen, List.take_take]
      norm_num
    rw [this, List.take_succ_cons]
  · push_neg at hg
    have h1 : List.take 50 g = g := List.take_of_length_le (by omega)
    have h2 : List.take 50 (item :: g) = item :: g := List.take_of_length_le (by simp; omega)
    rw [h1, h2, if_neg (by simp; omega)]

/-! ## Claim C10: out-of-range history loads are complete no-ops -/

/-- C10: for every index with no corresponding history entry (negative or
at least the history length), `loadFromHistory` leaves the whole engine
state — buffer, committed sequence, flags, history and variable lists —
exactly as it was. -/
theorem c10_loadFromHistory_noop (s : CalcState) (index : ℤ)
    (h : index < 0 ∨ (s.history.length : ℤ) ≤ index) :
    loadFromHistory index s = s := by
  have hnone : historyGet s.history index = none := by
    unfold historyGet
    rw [dif_neg]
    rintro ⟨h0, hlt⟩
    rcases h with h | h
    · omega
    · omega
  unfold loadFromHistory
  rw [hnone]

/-- Witness for C10 at a concrete out-of-range index. -/
theorem c10_loadFromHistory_noop_witness :
    loadFromHistory 3 initState = initState :=
  c10_loadFromHistory_noop initState 3 (Or.inr (by decide))

/-! ## Claim C6: a loaded history entry survives an immediate calculate -/

/-- C6: for every valid history index, `loadFromHistory` followed
immediately by `calculate` (with no intervening edits) leaves the current
value exactly equal to the stored result string of that entry, and the
display shows that result (formatted by the same display formatter applied
to every current value).  The `calculate` call is a no-op because loading
reconstructs neither `previousValue` nor `operation`. -/
theorem c6_loadFromHistory_calculate (s : CalcState) (index : ℤ)
    (item : HistoryItem) (h : historyGet s.history index = some item) :
    (calculate (loadFromHistory index s)).currentValue = item.result ∧
    calculate (loadFromHistory index s) = loadFromHistory index s ∧
    getDisplayValue (calculate (loadFromHistory index s)) = formatNumber item.result := by
  have hload : loadFromHistory index s =
      { clear s with inputHistory := item.expressionTokens.map copyToken,
                     currentValue := item.result,
                     shouldResetScreen := true } := by
    unfold loadFromHistory
    rw [h]
  have hprev : (loadFromHistory index s).previousValue = none := by
    rw [hload]; rfl
  have hcalc : calculate (loadFromHistory index s) = loadFromHistory index s := by
    unfold calculate
    rw [hprev]
  refine ⟨?_, hcalc, ?_⟩
  · rw [hcalc, hload]
  · rw [hcalc, hload]; rfl

/-- Witness for C6 on a concrete one-entry history. -/
theorem c6_loadFromHistory_calculate_witness :
    (calculate (loadFromHistory 0
      { initState with history := [⟨[], ['5']⟩] })).currentValue = ['5'] :=
  (c6_loadFromHistory_calculate { initState with history := [⟨[], ['5']⟩] } 0
    ⟨[], ['5']⟩ (by decide)).1

/-! ## Claim C3: division by zero and the error state -/

/-- C3 counterexample: dividing one by zero does enter the error state
(buffer `"Error"`, reset flag set, nothing pushed to history), but the
committed token sequence is NOT cleared — it still holds the three tokens
of the failed expression, contradicting the claim that the committed
sequence is cleared on evaluator failure. -/
theorem c3_counterexample :
    (run [.inputDigit ['1'], .setOperation .div, .inputDigit ['0'],
          .calculate]).currentValue = "Error".toList ∧
    (run [.inputDigit ['1'], .setOperation .div, .inputDigit ['0'],
          .calculate]).shouldResetScreen = true ∧
    (run [.inputDigit ['1'], .setOperation .div, .inputDigit ['0'],
          .calculate]).history = [] ∧
    (run [.inputDigit ['1'], .setOperation .div, .inputDigit ['0'],
          .calculate]).inputHistory ≠ [] := by
  refine ⟨by decide, by decide, by decide, by decide⟩

/-- C3 as amended: whenever `calculate` takes the division-by-zero branch,
the buffer value becomes the literal error marker, `AwaitingOperand` is
set, no entry is added to the history store, the committed sequence keeps
the failed expression's tokens (it is cleared only by `clear`), and a
subsequent `clear` returns the engine to the initial state up to the
untouched history and variable stores, with display `"0"`. -/
theorem c3_divzero_error (s : CalcState) (pv : List Char)
    (hp : s.previousValue = some pv) (hop : s.operation = some Operation.div)
    (hrs : s.shouldResetScreen = false)
    (hz : parseFloat s.currentValue = some 0) :
    (calculate s).currentValue = "Error".toList ∧
    (calculate s).shouldResetScreen = true ∧
    (calculate s).history = s.history ∧
    (calculate s).inputHistory = s.inputHistory ++ [operandTokenOf s] ∧
    clear (calculate s) = { initState with history := s.history, varStore := s.varStore } ∧
    getDisplayValue (clear (calculate s)) = ['0'] := by
  have hcalc : calculate s =
      handleError { s with inputHistory := s.inputHistory ++ [operandTokenOf s] } := by
    unfold calculate
    rw [hp, hop, hrs]
    simp only [Bool.false_eq_true, if_false, hz]
    rw [if_pos trivial]
  rw [hcalc]
  exact ⟨rfl, rfl, rfl, rfl, rfl, rfl⟩

/-- Witness for the amended C3, at the state reached by entering one,
divide, zero. -/
theorem c3_divzero_error_witness :
    (calculate (run [.inputDigit ['1'], .setOperation .div,
        .inputDigit ['0']])).currentValue = "Error".toList ∧
    (calculate (run [.inputDigit ['1'], .setOperation .div,
        .inputDigit ['0']])).history = [] :=
  have h := c3_divzero_error
    (run [.inputDigit ['1'], .setOperation .div, .inputDigit ['0']]) ['1']
    (by decide) (by decide) (by decide) (by decide)
  ⟨h.1, h.2.2.1.trans (by decide)⟩

/-! ## Claim C4: pressing an operator twice -/

/-- C4 counterexample: after entering one, plus, times, the last committed
token still carries the first operator `'+'` — its value is NOT replaced by
`'×'`; only the engine's pending `operation` field holds the new operator.
This contradicts the claim that the committed operator token's value is
replaced. -/
theorem c4_counterexample :
    (run [.inputDigit ['1'], .setOperation .add, .setOperation .mul]).inputHistory =
      [{ type := .operand, value := ['1'], numberLabel := some ['1'] },
       { type := .operator, value := ['+'] }] ∧
    (run [.inputDigit ['1'], .setOperation .add, .setOperation .mul]).operation =
      some Operation.mul ∧
    opSymbol Operation.mul ≠ ['+'] := by
  exact ⟨by decide, by decide, by decide⟩

/-- C4 as amended: when an operator is pressed while the engine is awaiting
an operand mid-chain (immediately after another operator), no new token is
appended and the committed sequence is left entirely unchanged — the
earlier operator token keeps its value — while the pending `operation`
field is replaced by the new operator; consequently one, plus, times, two,
equals evaluates to two (as one times two), with the history entry
recording the tokens of one plus two. -/
theorem c4_operator_replace (s : CalcState) (op0 op1 : Operation)
    (hrs : s.shouldResetScreen = true) (hop : s.operation = some op0) :
    (setOperation op1 s).inputHistory = s.inputHistory ∧
    (setOperation op1 s).operation = some op1 ∧
    (setOperation op1 s).currentValue = s.currentValue ∧
    (setOperation op1 s).previousValue = some s.currentValue ∧
    (run [.inputDigit ['1'], .setOperation .add, .setOperation .mul,
          .inputDigit ['2'], .calculate]).currentValue = ['2'] ∧
    (run [.inputDigit ['1'], .setOperation .add, .setOperation .mul,
          .inputDigit ['2'], .calculate]).history =
      [⟨[{ type := .operand, value := ['1'], numberLabel := some ['1'] },
         { type := .operator, value := ['+'] },
         { type := .operand, value := ['2'], numberLabel := some ['2'] }], ['2']⟩] := by
  have hset : setOperation op1 s =
      { s with previousValue := some s.currentValue,
               previousLabel := s.currentLabel,
               previousUnit := s.currentUnit,
               previousColor := s.currentColor,
               operation := some op1,
               shouldResetScreen := true } := by
    unfold setOperation
    rw [hrs, hop]
    simp
  rw [hset]
  exact ⟨rfl, rfl, rfl, rfl, by decide, by decide⟩

/-- Witness for the amended C4 at the state reached by one, plus. -/
theorem c4_operator_replace_witness :
    (setOperation .mul (run [.inputDigit ['1'], .setOperation .add])).inputHistory =
      (run [.inputDigit ['1'], .setOperation .add]).inputHistory :=
  (c4_operator_replace (run [.inputDigit ['1'], .setOperation .add])
    .add .mul (by decide) (by decide)).1

/-! ## Claim C5: the fifty-entry history cap -/

/-- Chain evaluation never touches the history store. -/
theorem calculateIntermediate_history (s : CalcState) :
    (calculateIntermediate s).history = s.history := by
  unfold calculateIntermediate
  rcases s.previousValue with _ | pv <;> rcases s.operation with _ | op <;> try rfl
  cases op <;> simp [handleError] <;> split <;> rfl

/-- Digit entry never touches the history store. -/
theorem inputDigit_history (d : List Char) (s : CalcState) :
    (inputDigit d s).history = s.history := by
  unfold inputDigit
  repeat' split
  all_goals rfl

/-- No public action other than `calculate` modifies the history store. -/
theorem stepAction_history (a : CalcAction) (s : CalcState)
    (h : a ≠ .calculate) : (stepAction a s).history = s.history := by
  cases a with
  | inputDigit d => exact inputDigit_history d s
  | inputDot =>
      show (inputDot s).history = s.history
      unfold inputDot
      split <;> rfl
  | setOperation op =>
      show (setOperation op s).history = s.history
      unfold setOperation
      simp only
      split <;> split <;> simp [calculateIntermediate_history]
  | calculate => exact absurd rfl h
  | clear => rfl
  | deleteChar =>
      show (deleteChar s).history = s.history
      unfold deleteChar
      repeat' split
      all_goals rfl
  | toggleSign =>
      show (toggleSign s).history = s.history
      simp only [toggleSign]
      split <;> rfl
  | percentage => rfl
  | setLabel t l c =>
      show (setLabel t l c s).history = s.history
      unfold setLabel
      cases t <;> rfl
  | setUnit t u =>
      show (setUnit t u s).history = s.history
      unfold setUnit
      cases t <;> rfl
  | loadFromHistory i =>
      show (loadFromHistory i s).history = s.history
      unfold loadFromHistory
      rcases historyGet s.history i with _ | item <;> rfl
  | saveVariable l v u c n => rfl
  | deleteVariable l => rfl
  | inputVariable v =>
      show (inputVariable v s).history = s.history
      show (inputDigit v.value s).history = s.history
      exact inputDigit_history v.value s

/-- A `calculate` call either pushes exactly the expected entry onto the
capped history or, on failure, leaves the history unchanged. -/
theorem calculate_history (s : CalcState) :
    (calculate s).history =
      if calcSucceeds s then capPush (pushedItem s) s.history else s.history := by
  unfold calculate calcSucceeds pushedItem trimmedTokens calcResultString
  rcases hpv : s.previousValue with _ | pv <;> rcases hop : s.operation with _ | op <;>
    try rfl
  rcases hsr : s.shouldResetScreen with _ | _
  · simp only [Bool.false_eq_true, if_false]
    cases op <;> simp [handleError] <;> split <;> rfl
  · simp only [if_true]

/-- Fold invariant for the ghost log: the engine history is always the
fifty-entry truncation of the uncapped log. -/
theorem foldLog_inv (acts : List CalcAction) :
    ∀ (s : CalcState) (g : List HistoryItem), s.history = List.take 50 g →
      (acts.foldl stepLog (s, g)).1 = runFrom s acts ∧
      (acts.foldl stepLog (s, g)).1.history = List.take 50 (acts.foldl stepLog (s, g)).2 := by
  induction acts with
  | nil => intro s g h; exact ⟨rfl, h⟩
  | cons a acts ih =>
      intro s g h
      have hstep : stepLog (s, g) a =
          (stepAction a s,
           if a = .calculate ∧ calcSucceeds s = true then pushedItem s :: g else g) := by
        unfold stepLog
        cases a <;> simp
        split <;> rfl
      have hinv : (stepAction a s).history =
          List.take 50 (if a = .calculate ∧ calcSucceeds s = true then pushedItem s :: g else g) := by
        by_cases hc : a = .calculate
        · subst hc
          have hred : (stepAction CalcAction.calculate s).history = (calculate s).history := rfl
          rw [hred, calculate_history]
          rcases hsucc : calcSucceeds s with _ | _
          · simpa [hsucc] using h
          · simp only [hsucc, if_true, true_and]
            rw [h, capPush_take]
        · rw [stepAction_history a s hc, if_neg (fun hh => hc hh.1)]
          exact h
      have := ih (stepAction a s)
        (if a = .calculate ∧ calcSucceeds s = true then pushedItem s :: g else g) hinv
      simpa [List.foldl_cons, hstep, runFrom] using this

/-- C5: the engine history is exactly the fifty-newest-first truncation of
the ghost log of all successfully pushed entries — so after `n` successful
`calculate` calls from the initial state it holds `min n 50` entries,
newest first, each inserted at the front, and the fifty-first (and every
later) success evicts exactly the oldest retained entry. -/
theorem c5_history_cap (acts : List CalcAction) :
    (runLog acts).1 = run acts ∧
    (runLog acts).1.history = List.take 50 (runLog acts).2 ∧
    (runLog acts).1.history.length = min (runLog acts).2.length 50 := by
  have h := foldLog_inv acts initState [] rfl
  unfold runLog run
  refine ⟨h.1, h.2, ?_⟩
  rw [h.2, List.length_take, Nat.min_comm]

/-! ## Claim C8: variable saving is an upsert keyed on label -/

/-- Insertion used by the variable sort is a permutation with the new
element in front. -/
theorem insertVar_perm (x : SavedVariable) (l : List SavedVariable) :
    (insertVar x l).Perm (x :: l) := by
  induction l with
  | nil => exact List.Perm.refl _
  | cons y ys ih =>
      unfold insertVar
      split
      · exact List.Perm.refl _
      · exact (List.Perm.cons y ih).trans (List.Perm.swap x y ys)

/-- The variable sort permutes the store. -/
theorem sortVars_perm (l : List SavedVariable) : (sortVars l).Perm l := by
  induction l with
  | nil => exact List.Perm.refl _
  | cons x xs ih =>
      exact (insertVar_perm x (sortVars xs)).trans (List.Perm.cons x ih)

/-- Insertion preserves the descending timestamp order. -/
theorem insertVar_sorted (x : SavedVariable) (l : List SavedVariable)
    (h : l.Pairwise tsGE) : (insertVar x l).Pairwise tsGE := by
  induction l with
  | nil => exact List.pairwise_singleton _ _
  | cons y ys ih =>
      rcases List.pairwise_cons.mp h with ⟨hy, hys⟩
      unfold insertVar
      split
      · rename_i hlt
        refine List.pairwise_cons.mpr ⟨?_, h⟩
        intro b hb
        rcases List.mem_cons.mp hb with hb | hb
        · subst hb; exact le_of_lt hlt
        · exact le_trans (hy b hb) (le_of_lt hlt)
      · rename_i hnlt
        refine List.pairwise_cons.mpr ⟨?_, ih hys⟩
        intro b hb
        rcases List.mem_cons.mp ((insertVar_perm x ys).mem_iff.mp hb) with hb | hb
        · subst hb; exact le_of_not_lt hnlt
        · exact hy b hb

/-- The variable sort leaves the store sorted by descending timestamp. -/
theorem sortVars_sorted (l : List SavedVariable) : (sortVars l).Pairwise tsGE := by
  induction l with
  | nil => exact List.Pairwise.nil
  | cons x xs ih => exact insertVar_sorted x (sortVars xs) ih

/-- A failed `findIndex` scan means no element satisfies the predicate. -/
theorem jsFindIndex_none (p : SavedVariable → Bool) :
    ∀ l : List SavedVariable, jsFindIndex p l = none → ∀ v ∈ l, p v = false := by
  intro l
  induction l with
  | nil => intro _ v hv; cases hv
  | cons y ys ih =>
      intro h v hv
      unfold jsFindIndex at h
      by_cases hy : p y
      · rw [if_pos hy] at h; cases h
      · rw [if_neg hy] at h
        rcases List.mem_cons.mp hv with hv | hv
        · subst hv; exact Bool.eq_false_iff.mpr hy
        · rcases hfi : jsFindIndex p ys with _ | i
          · exact ih hfi v hv
          · rw [hfi] at h; cases h

/-- A successful `findIndex` scan returns an index holding a match. -/
theorem jsFindIndex_some (p : SavedVariable → Bool) :
    ∀ (l : List SavedVariable) (i : ℕ), jsFindIndex p l = some i →
      ∃ v, l.get? i = some v ∧ p v = true := by
  intro l
  induction l with
  | nil => intro i h; cases h
  | cons y ys ih =>
      intro i h
      unfold jsFindIndex at h
      by_cases hy : p y
      · rw [if_pos hy] at h
        cases h
        exact ⟨y, rfl, hy⟩
      · rw [if_neg hy] at h
        rcases hfi : jsFindIndex p ys with _ | j
        · rw [hfi] at h; cases h
        · rw [hfi] at h
          cases h
          rcases ih j hfi with ⟨v, hv, hpv⟩
          exact ⟨v, hv, hpv⟩

/-- C8: `saveVariable` is an upsert keyed on label.  On a store with unique
labels, saving under an existing label keeps the length (overwriting that
entry), saving under a new label appends one entry, labels stay unique, the
store is sorted newest-first after the call, the saved entry is present
with the given value, unit and colour, and it is the only entry under its
label. -/
theorem c8_saveVariable (s : CalcState) (label : String) (value : List Char)
    (unit : Option String) (color : Option VariableColor) (now : ℕ)
    (hnd : (s.varStore.map SavedVariable.label).Nodup) :
    ((∃ v ∈ s.varStore, v.label = label) →
      (saveVariable label value unit color now s).varStore.length = s.varStore.length) ∧
    ((∀ v ∈ s.varStore, v.label ≠ label) →
      (saveVariable label value unit color now s).varStore.length = s.varStore.length + 1) ∧
    ((saveVariable label value unit color now s).varStore.map SavedVariable.label).Nodup ∧
    (saveVariable label value unit color now s).varStore.Pairwise tsGE ∧
    (⟨label, value, unit, now, color⟩ : SavedVariable) ∈
      (saveVariable label value unit color now s).varStore ∧
    (∀ v ∈ (saveVariable label value unit color now s).varStore,
      v.label = label → v = ⟨label, value, unit, now, color⟩) := by
  set newVar : SavedVariable := ⟨label, value, unit, now, color⟩ with hnew
  have hout : (saveVariable label value unit color now s).varStore =
      sortVars (match jsFindIndex (fun v => v.label = label) s.varStore with
                | some i => s.varStore.set i newVar
                | none => s.varStore ++ [newVar]) := rfl
  rcases hfi : jsFindIndex (fun v => v.label = label) s.varStore with _ | i
  · -- no existing entry: append
    have hnone := jsFindIndex_none _ _ hfi
    have hnotin : label ∉ s.varStore.map SavedVariable.label := by
      intro hmem
      rcases List.mem_map.mp hmem with ⟨v, hv, hlv⟩
      have := hnone v hv
      simp [hlv] at this
    have hperm : (saveVariable label value unit color now s).varStore.Perm
        (s.varStore ++ [newVar]) := by
      rw [hout, hfi]
      exact sortVars_perm _
    have hlabels : ((s.varStore ++ [newVar]).map SavedVariable.label).Nodup := by
      rw [List.map_append]
      simp only [List.map_cons, List.map_nil]
      rw [List.nodup_append]
      refine ⟨hnd, List.nodup_singleton _, ?_⟩
      intro a ha hb
      simp only [List.mem_singleton] at hb
      subst hb
      exact hnotin ha
    have hmemnew : newVar ∈ (saveVariable label value unit color now s).varStore :=
      hperm.mem_iff.mpr (List.mem_append.mpr (Or.inr (List.mem_singleton.mpr rfl)))
    refine ⟨?_, ?_, ?_, ?_, hmemnew, ?_⟩
    · intro ⟨v, hv, hlv⟩
      have := hnone v hv
      simp [hlv] at this
    · intro _
      rw [hperm.length_eq, List.length_append, List.length_singleton]
    · exact ((hperm.map SavedVariable.label).nodup_iff).mpr hlabels
    · rw [hout, hfi]; exact sortVars_sorted _
    · intro v hv hlv
      have hvmem := hperm.mem_iff.mp hv
      have hnodup : ((saveVariable label value unit color now s).varStore.map
          SavedVariable.label).Nodup := ((hperm.map SavedVariable.label).nodup_iff).mpr hlabels
      exact List.inj_on_of_nodup_map hnodup hv hmemnew (by rw [hlv])
  · -- existing entry at index i: overwrite
    rcases jsFindIndex_some _ _ i hfi with ⟨v0, hv0, hpv0⟩
    have hv0lab : v0.label = label := by simpa using hpv0
    have hperm : (saveVariable label value unit color now s).varStore.Perm
        (s.varStore.set i newVar) := by
      rw [hout, hfi]
      exact sortVars_perm _
    have hlabset : (s.varStore.set i newVar).map SavedVariable.label =
        s.varStore.map SavedVariable.label := by
      rw [List.map_set]
      apply set_get_self
      simp [List.get?_map, hv0, hv0lab, hnew]
      exact ⟨v0, by simpa [List.get?_eq_getElem?] using hv0, hv0lab⟩
    have hlabels : ((s.varStore.set i newVar).map SavedVariable.label).Nodup := by
      rw [hlabset]; exact hnd
    have hilt : i < s.varStore.length := by
      by_contra hge
      rw [List.get?_eq_none.mpr (le_of_not_lt hge)] at hv0
      cases hv0
    have hmemnew : newVar ∈ (saveVariable label value unit color now s).varStore := by
      apply hperm.mem_iff.mpr
      have := List.mem_set s.varStore i hilt newVar
      exact this
    have hnodup : ((saveVariable label value unit color now s).varStore.map
        SavedVariable.label).Nodup := ((hperm.map SavedVariable.label).nodup_iff).mpr hlabels
    refine ⟨?_, ?_, hnodup, ?_, hmemnew, ?_⟩
    · intro _
      rw [hperm.length_eq, List.length_set]
    · intro hall
      exact absurd hv0lab (hall v0 (List.get?_mem hv0))
    · rw [hout, hfi]; exact sortVars_sorted _
    · intro v hv hlv
      exact List.inj_on_of_nodup_map hnodup hv hmemnew (by rw [hlv])

/-- Witness for C8 on a concrete one-variable store. -/
theorem c8_saveVariable_witness :
    (saveVariable "a" ['2'] none none 9
      { initState with varStore := [⟨"a", ['1'], none, 5, none⟩] }).varStore.length = 1 ∧
    (⟨"a", ['2'], none, 9, none⟩ : SavedVariable) ∈
      (saveVariable "a" ['2'] none none 9
        { initState with varStore := [⟨"a", ['1'], none, 5, none⟩] }).varStore :=
  have h := c8_saveVariable
    { initState with varStore := [⟨"a", ['1'], none, 5, none⟩] }
    "a" ['2'] none none 9 (by decide)
  ⟨(h.1 ⟨⟨"a", ['1'], none, 5, none⟩, by decide, rfl⟩).trans (by decide),
   h.2.2.2.2.1⟩

/-! ## Claim C7: the number formatter is idempotent -/

/-- Digits are word characters. -/
theorem word_of_digit {c : Char} (h : c.isDigit = true) : isWordChar c = true := by
  unfold isWordChar Char.isAlphanum
  rw [h]
  simp

/-- The grouped run length after one grouping pass is the remainder modulo
three of the original run length. -/
theorem runLen_grp (cs : List Char) : runLen (grp true cs) = runLen cs % 3 := by
  induction cs with
  | nil => rfl
  | cons d cs ih =>
      by_cases hd : d.isDigit
      · have hrun : runLen (d :: cs) = runLen cs + 1 := by simp [runLen, hd]
        by_cases h3 : runLen (d :: cs) % 3 = 0
        · rw [grp, if_pos ⟨rfl, hd, h3⟩]
          have : runLen (',' :: d :: grp (isWordChar d) cs) = 0 := by
            simp [runLen]
          rw [this, h3]
        · rw [grp, if_neg (by
            rintro ⟨-, -, hc⟩
            exact h3 hc)]
          rw [word_of_digit hd]
          have : runLen (d :: grp true cs) = runLen (grp true cs) + 1 := by
            simp [runLen, hd]
          rw [this, ih, hrun]
          rw [hrun] at h3
          omega
      · have h1 : runLen (d :: cs) = 0 := by simp [runLen, hd]
        rw [grp, if_neg (by rintro ⟨-, hc, -⟩; exact hd hc)]
        have : runLen (d :: grp (isWordChar d) cs) = 0 := by simp [runLen, hd]
        rw [this, h1]

/-- The grouping pass is idempotent. -/
theorem grp_idem (cs : List Char) : ∀ fl : Bool, grp fl (grp fl cs) = grp fl cs := by
  induction cs with
  | nil => intro fl; rfl
  | cons c cs ih =>
      intro fl
      by_cases hm : (fl = true ∧ c.isDigit = true ∧ runLen (c :: cs) % 3 = 0)
      · obtain ⟨hfl, hc, h3⟩ := hm
        have hw := word_of_digit hc
        rw [grp, if_pos ⟨hfl, hc, h3⟩, hw]
        rw [grp, if_neg (by rintro ⟨-, hd, -⟩; simp at hd)]
        have : isWordChar ',' = false := by decide
        rw [this]
        rw [grp, if_neg (by rintro ⟨hfalse, -, -⟩; cases hfalse)]
        rw [hw, ih true]
      · rw [grp, if_neg hm]
        have hm2 : ¬(fl = true ∧ c.isDigit = true ∧
            runLen (c :: grp (isWordChar c) cs) % 3 = 0) := by
          rintro ⟨hfl, hc, h3⟩
          apply hm
          refine ⟨hfl, hc, ?_⟩
          rw [word_of_digit hc] at h3
          have hr : runLen (c :: grp true cs) = runLen (grp true cs) + 1 := by
            simp [runLen, hc]
          rw [hr, runLen_grp] at h3
          have : runLen (c :: cs) = runLen cs + 1 := by simp [runLen, hc]
          rw [this]
          omega
        rw [grp, if_neg hm2, ih (isWordChar c)]

/-- Characters of a grouped string are characters of the input or commas. -/
theorem mem_grp : ∀ (l : List Char) (fl : Bool) (a : Char),
    a ∈ grp fl l → a ∈ l ∨ a = ',' := by
  intro l
  induction l with
  | nil => intro fl a h; cases h
  | cons c cs ih =>
      intro fl a h
      rw [grp] at h
      split at h
      · rcases List.mem_cons.mp h with h | h
        · exact Or.inr h
        · rcases List.mem_cons.mp h with h | h
          · exact Or.inl (List.mem_cons.mpr (Or.inl h))
          · rcases ih (isWordChar c) a h with h | h
            · exact Or.inl (List.mem_cons.mpr (Or.inr h))
            · exact Or.inr h
      · rcases List.mem_cons.mp h with h | h
        · exact Or.inl (List.mem_cons.mpr (Or.inl h))
        · rcases ih (isWordChar c) a h with h | h
          · exact Or.inl (List.mem_cons.mpr (Or.inr h))
          · exact Or.inr h

/-- The grouping pass of an empty string is empty, and only of it. -/
theorem grp_eq_nil (l : List Char) (fl : Bool) : grp fl l = [] ↔ l = [] := by
  cases l with
  | nil => simp [grp]
  | cons c cs =>
      rw [grp]
      constructor
      · intro h
        split at h <;> cases h
      · intro h; cases h

/-- Splitting on dots never yields an empty part list. -/
theorem splitDot_ne_nil (l : List Char) : splitDot l ≠ [] := by
  cases l with
  | nil => simp [splitDot]
  | cons c cs =>
      rw [splitDot]
      split
      · simp
      · split <;> simp

/-- Characters of any split part come from the input. -/
theorem mem_of_mem_splitDot : ∀ (l p : List Char) (a : Char),
    p ∈ splitDot l → a ∈ p → a ∈ l := by
  intro l
  induction l with
  | nil =>
      intro p a hp ha
      rw [splitDot] at hp
      rcases List.mem_singleton.mp hp with rfl
      cases ha
  | cons c cs ih =>
      intro p a hp ha
      rw [splitDot] at hp
      split at hp
      · rcases List.mem_cons.mp hp with hp | hp
        · subst hp; cases ha
        · exact List.mem_cons.mpr (Or.inr (ih p a hp ha))
      · rcases hsp : splitDot cs with _ | ⟨q, qs⟩
        · exact absurd hsp (splitDot_ne_nil cs)
        · rw [hsp] at hp
          rcases List.mem_cons.mp hp with hp | hp
          · subst hp
            rcases List.mem_cons.mp ha with ha | ha
            · exact List.mem_cons.mpr (Or.inl ha)
            · exact List.mem_cons.mpr
                (Or.inr (ih q a (hsp ▸ List.mem_cons.mpr (Or.inl rfl)) ha))
          · exact List.mem_cons.mpr
              (Or.inr (ih p a (hsp ▸ List.mem_cons.mpr (Or.inr hp)) ha))

/-- Split parts contain no dots. -/
theorem noDot_of_mem_splitDot : ∀ (l p : List Char),
    p ∈ splitDot l → '.' ∉ p := by
  intro l
  induction l with
  | nil =>
      intro p hp
      rw [splitDot] at hp
      rcases List.mem_singleton.mp hp with rfl
      simp
  | cons c cs ih =>
      intro p hp
      rw [splitDot] at hp
      split at hp
      · rcases List.mem_cons.mp hp with hp | hp
        · subst hp; simp
        · exact ih p hp
      · rename_i hc
        rcases hsp : splitDot cs with _ | ⟨q, qs⟩
        · exact absurd hsp (splitDot_ne_nil cs)
        · rw [hsp] at hp
          rcases List.mem_cons.mp hp with hp | hp
          · subst hp
            intro hmem
            rcases List.mem_cons.mp hmem with hd | hd
            · exact hc hd.symm
            · exact ih q (hsp ▸ List.mem_cons.mpr (Or.inl rfl)) hd
          · exact ih p (hsp ▸ List.mem_cons.mpr (Or.inr hp))

/-- Splitting a dot-free string returns it whole. -/
theorem splitDot_of_noDot : ∀ l : List Char, '.' ∉ l → splitDot l = [l] := by
  intro l
  induction l with
  | nil => intro _; rfl
  | cons c cs ih =>
      intro h
      rw [splitDot]
      rw [if_neg (by intro hc; exact h (hc ▸ List.mem_cons.mpr (Or.inl rfl)))]
      rw [ih (fun hm => h (List.mem_cons.mpr (Or.inr hm)))]

/-- Splitting a dot-free prefix followed by a dot peels off the prefix. -/
theorem splitDot_append_dot : ∀ (a m : List Char), '.' ∉ a →
    splitDot (a ++ '.' :: m) = a :: splitDot m := by
  intro a
  induction a with
  | nil => intro m _; rw [List.nil_append, splitDot, if_pos rfl]
  | cons c cs ih =>
      intro m h
      rw [List.cons_append, splitDot]
      rw [if_neg (by intro hc; exact h (hc ▸ List.mem_cons.mpr (Or.inl rfl)))]
      rw [ih m (fun hm => h (List.mem_cons.mpr (Or.inr hm)))]

/-- Rejoining and resplitting dot-free parts is the identity. -/
theorem splitDot_interDot : ∀ L : List (List Char),
    (∀ p ∈ L, '.' ∉ p) → L ≠ [] → splitDot (interDot L) = L := by
  intro L
  induction L with
  | nil => intro _ h; exact absurd rfl h
  | cons p ps ih =>
      intro hnd _
      cases ps with
      | nil =>
          rw [interDot]
          exact splitDot_of_noDot p (hnd p (List.mem_cons.mpr (Or.inl rfl)))
      | cons q qs =>
          have hid : interDot (p :: q :: qs) = p ++ '.' :: interDot (q :: qs) := rfl
          rw [hid, splitDot_append_dot p _ (hnd p (List.mem_cons.mpr (Or.inl rfl)))]
          rw [ih (fun r hr => hnd r (List.mem_cons.mpr (Or.inr hr))) (by simp)]

/-- Characters of a rejoined part list come from the parts or are dots. -/
theorem mem_interDot : ∀ (L : List (List Char)) (a : Char),
    a ∈ interDot L → (∃ p ∈ L, a ∈ p) ∨ a = '.' := by
  intro L
  induction L with
  | nil => intro a h; cases h
  | cons p ps ih =>
      intro a h
      cases ps with
      | nil =>
          rw [interDot] at h
          exact Or.inl ⟨p, List.mem_cons.mpr (Or.inl rfl), h⟩
      | cons q qs =>
          have hid : interDot (p :: q :: qs) = p ++ '.' :: interDot (q :: qs) := rfl
          rw [hid] at h
          rcases List.mem_append.mp h with h | h
          · exact Or.inl ⟨p, List.mem_cons.mpr (Or.inl rfl), h⟩
          · rcases List.mem_cons.mp h with h | h
            · exact Or.inr h
            · rcases ih a h with ⟨r, hr, har⟩ | h
              · exact Or.inl ⟨r, List.mem_cons.mpr (Or.inr hr), har⟩
              · exact Or.inr h

/-- Splitting yields a single empty part only for the empty string. -/
theorem splitDot_eq_nil_nil : ∀ v : List Char, splitDot v = [[]] → v = [] := by
  intro v h
  cases v with
  | nil => rfl
  | cons c cs =>
      rw [splitDot] at h
      split at h
      · have := List.cons.injEq ([] : List Char) (splitDot cs) [] []
        rw [this] at h
        exact absurd h.2 (splitDot_ne_nil cs)
      · rcases hsp : splitDot cs with _ | ⟨q, qs⟩
        · exact absurd hsp (splitDot_ne_nil cs)
        · rw [hsp] at h
          have := (List.cons.injEq (c :: q) qs [] []).mp h
          cases this.1

/-- C7: the display formatter is idempotent on every string — formatting a
second time never changes the output, so an already-formatted decimal
string such as `"1,234.5"` is returned unchanged — and any string
containing exponential notation is returned verbatim. -/
theorem c7_formatNumber_idempotent :
    (∀ v : List Char, formatNumber (formatNumber v) = formatNumber v) ∧
    (∀ v : List Char, ('e' ∈ v ∨ 'E' ∈ v) → formatNumber v = v) ∧
    formatNumber "1,234.5".toList = "1,234.5".toList := by
  have hexp : ∀ v : List Char, ('e' ∈ v ∨ 'E' ∈ v) → formatNumber v = v := by
    intro v hv
    have hne : v ≠ [] := by
      rintro rfl
      rcases hv with h | h <;> cases h
    unfold formatNumber
    rw [if_neg hne, if_pos hv]
  refine ⟨?_, hexp, by decide⟩
  intro v
  by_cases hne : v = []
  · subst hne; rfl
  · by_cases hev : ('e' ∈ v ∨ 'E' ∈ v)
    · rw [hexp v hev]
      exact hexp v hev
    · obtain ⟨p, ps, hsp⟩ : ∃ p ps, splitDot v = p :: ps := by
        rcases h : splitDot v with _ | ⟨p, ps⟩
        · exact absurd h (splitDot_ne_nil v)
        · exact ⟨p, ps, rfl⟩
      have h1 : formatNumber v = interDot (grp false p :: ps) := by
        unfold formatNumber
        rw [if_neg hne, if_neg hev, hsp]
      have hpdot : '.' ∉ p :=
        noDot_of_mem_splitDot v p (hsp ▸ List.mem_cons.mpr (Or.inl rfl))
      have hpsdot : ∀ r ∈ ps, '.' ∉ r := fun r hr =>
        noDot_of_mem_splitDot v r (hsp ▸ List.mem_cons.mpr (Or.inr hr))
      have hgdot : '.' ∉ grp false p := by
        intro hmem
        rcases mem_grp p false '.' hmem with h | h
        · exact hpdot h
        · simp at h
      have hparts : ∀ r ∈ grp false p :: ps, '.' ∉ r := by
        intro r hr
        rcases List.mem_cons.mp hr with hr | hr
        · subst hr; exact hgdot
        · exact hpsdot r hr
      have hout_ne : interDot (grp false p :: ps) ≠ [] := by
        cases ps with
        | nil =>
            rw [interDot]
            rw [Ne, grp_eq_nil]
            intro hp
            subst hp
            exact hne (splitDot_eq_nil_nil v hsp)
        | cons r rs =>
            have hid : interDot (grp false p :: r :: rs) =
                grp false p ++ '.' :: interDot (r :: rs) := rfl
            rw [hid]
            simp
      have hmemv : ∀ a : Char, a ∈ interDot (grp false p :: ps) → a ∈ v ∨ a = ',' ∨ a = '.' := by
        intro a ha
        rcases mem_interDot _ a ha with ⟨r, hr, har⟩ | ha
        · rcases List.mem_cons.mp hr with hr | hr
          · subst hr
            rcases mem_grp p false a har with h | h
            · exact Or.inl (mem_of_mem_splitDot v p a
                (hsp ▸ List.mem_cons.mpr (Or.inl rfl)) h)
            · exact Or.inr (Or.inl h)
          · exact Or.inl (mem_of_mem_splitDot v r a
              (hsp ▸ List.mem_cons.mpr (Or.inr hr)) har)
        · exact Or.inr (Or.inr ha)
      have hout_e : ¬('e' ∈ interDot (grp false p :: ps) ∨
          'E' ∈ interDot (grp false p :: ps)) := by
        rintro (h | h)
        · rcases hmemv 'e' h with h | h | h
          · exact hev (Or.inl h)
          · cases h
          · cases h
        · rcases hmemv 'E' h with h | h | h
          · exact hev (Or.inr h)
          · cases h
          · cases h
      rw [h1]
      unfold formatNumber
      rw [if_neg hout_ne, if_neg hout_e]
      rw [splitDot_interDot (grp false p :: ps) hparts (by simp)]
      show interDot (grp false (grp false p) :: ps) = interDot (grp false p :: ps)
      rw [grp_idem p false]

/-- Witness for C7 at a concrete exponential string and a concrete
formatted string. -/
theorem c7_formatNumber_idempotent_witness :
    formatNumber "1e+21".toList = "1e+21".toList ∧
    formatNumber (formatNumber "1234567.25".toList) = formatNumber "1234567.25".toList :=
  ⟨c7_formatNumber_idempotent.2.1 "1e+21".toList (Or.inl (by decide)),
   c7_formatNumber_idempotent.1 "1234567.25".toList⟩

/-! ## Claim C9: buffer well-formedness invariant -/

/-- C9 counterexample: `saveVariable` and `inputVariable` are public
actions and accept arbitrary value text, so the reachable buffer can hold
`"1.2.3"`, which has two decimal points — the invariant does not hold for
every sequence of public actions. -/
theorem c9_counterexample :
    (run [.saveVariable "x" "1.2.3".toList none none 0,
          .inputVariable ⟨"x", "1.2.3".toList, none, 0, none⟩]).varStore =
      [⟨"x", "1.2.3".toList, none, 0, none⟩] ∧
    (run [.saveVariable "x" "1.2.3".toList none none 0,
          .inputVariable ⟨"x", "1.2.3".toList, none, 0, none⟩]).currentValue =
      "1.2.3".toList ∧
    (run [.saveVariable "x" "1.2.3".toList none none 0,
          .inputVariable ⟨"x", "1.2.3".toList, none, 0, none⟩]).currentValue.count '.' = 2 := by
  exact ⟨by decide, by decide, by decide⟩

/-- A one-character value is always well-formed. -/
theorem ValOK_single (c : Char) : ValOK [c] = true := by
  unfold ValOK noLeadZeroB
  simp [List.count_singleton]
  split <;> omega

/-- The empty value is well-formed. -/
theorem ValOK_nil : ValOK [] = true := by decide

/-- Appending one character preserves well-formedness when a dot is only
appended to a dot-free value and a digit is never appended to the single
zero. -/
theorem ValOK_append (v : List Char) (c : Char) (hv : ValOK v = true)
    (hdot : c = '.' → '.' ∉ v) (h0 : v = ['0'] → c = '.') :
    ValOK (v ++ [c]) = true := by
  unfold ValOK at hv ⊢
  rw [Bool.and_eq_true] at hv ⊢
  obtain ⟨hcount, hlead⟩ := hv
  constructor
  · rw [decide_eq_true_iff] at hcount ⊢
    rw [List.count_append, List.count_singleton]
    by_cases hc : c = '.'
    · have : '.' ∉ v := hdot hc
      rw [List.count_eq_zero.mpr this]
      subst hc
      simp
    · have : (('.' : Char) == c) = false ∨ ((c : Char) == '.') = false := by
        right
        exact beq_eq_false_iff_ne.mpr hc
      simp only [beq_iff_eq]
      rw [if_neg hc]
      omega
  · cases v with
    | nil => simp [noLeadZeroB]
    | cons a vs =>
        cases vs with
        | nil =>
            by_cases ha : a = '0'
            · subst ha
              have hc := h0 rfl
              subst hc
              decide
            · show noLeadZeroB [a, c] = true
              unfold noLeadZeroB
              simp [ha]
        | cons b vs2 =>
            show noLeadZeroB (a :: b :: (vs2 ++ [c])) = true
            unfold noLeadZeroB at hlead ⊢
            exact hlead

/-- Removing the last character preserves well-formedness. -/
theorem ValOK_dropLast (v : List Char) (hv : ValOK v = true) :
    ValOK v.dropLast = true := by
  unfold ValOK at hv ⊢
  rw [Bool.and_eq_true] at hv ⊢
  obtain ⟨hcount, hlead⟩ := hv
  constructor
  · rw [decide_eq_true_iff] at hcount ⊢
    exact le_trans ((List.dropLast_sublist v).count_le '.') hcount
  · cases v with
    | nil => decide
    | cons a vs =>
        cases vs with
        | nil => rfl
        | cons b vs2 =>
            cases vs2 with
            | nil => simp [noLeadZeroB]
            | cons d vs3 =>
                have : (a :: b :: d :: vs3).dropLast = a :: b :: (d :: vs3).dropLast := by
                  simp [List.dropLast_cons₂]
                rw [this]
                unfold noLeadZeroB at hlead ⊢
                exact hlead

/-- Digit characters are digits. -/
theorem digitChar_isDigit (d : ℕ) : (digitChar d).isDigit = true := by
  unfold digitChar
  have hk : d % 10 < 10 := Nat.mod_lt _ (by norm_num)
  set k := d % 10 with hkdef
  interval_cases k <;> decide

/-- Every character of a natural digit expansion is a digit. -/
theorem natDigitsAux_digits : ∀ (fuel n : ℕ) (c : Char),
    c ∈ natDigitsAux fuel n → c.isDigit = true := by
  intro fuel
  induction fuel with
  | zero => intro n c h; cases h
  | succ fuel ih =>
      intro n c h
      rw [natDigitsAux] at h
      split at h
      · rcases List.mem_singleton.mp h with rfl
        exact digitChar_isDigit n
      · rcases List.mem_append.mp h with h | h
        · exact ih (n / 10) c h
        · rcases List.mem_singleton.mp h with rfl
          exact digitChar_isDigit (n % 10)

/-- A digit expansion with fuel is never empty. -/
theorem natDigitsAux_ne_nil (fuel n : ℕ) (h : 0 < fuel) :
    natDigitsAux fuel n ≠ [] := by
  cases fuel with
  | zero => omega
  | succ fuel =>
      rw [natDigitsAux]
      split
      · simp
      · simp

/-- The leading digit of a positive number is not zero. -/
theorem natDigitsAux_head : ∀ (fuel n : ℕ), n ≠ 0 → n < fuel →
    ∀ c, (natDigitsAux fuel n).head? = some c → c ≠ '0' := by
  intro fuel
  induction fuel with
  | zero => intro n hn hf; omega
  | succ fuel ih =>
      intro n hn hf c hc
      rw [natDigitsAux] at hc
      split at hc
      · rename_i hlt
        simp only [List.head?_cons] at hc
        cases hc
        unfold digitChar
        have h10 : n % 10 = n := Nat.mod_eq_of_lt hlt
        rw [h10]
        interval_cases n
        · exact absurd rfl hn
        all_goals decide
      · rename_i hge
        rw [List.head?_append] at hc
        have hne : natDigitsAux fuel (n / 10) ≠ [] := by
          apply natDigitsAux_ne_nil
          omega
        rcases hh : (natDigitsAux fuel (n / 10)).head? with _ | d
        · rw [List.head?_eq_none_iff] at hh
          exact absurd hh hne
        · rw [hh] at hc
          simp only [Option.or_some] at hc
          injection hc with hdc
          rw [hdc] at hh
          apply ih (n / 10) _ _ c hh
          · intro h0
            have : n < 10 := by omega
            exact hge this
          · have h1 : n / 10 < n := Nat.div_lt_self (by omega) (by norm_num)
            omega

/-- The canonical digit string of zero. -/
theorem strNat_zero : strNat 0 = ['0'] := by decide

/-- Digit strings contain only digits. -/
theorem strNat_digits (n : ℕ) (c : Char) (h : c ∈ strNat n) : c.isDigit = true :=
  natDigitsAux_digits (n + 1) n c h

/-- Digit strings are nonempty. -/
theorem strNat_ne_nil (n : ℕ) : strNat n ≠ [] :=
  natDigitsAux_ne_nil (n + 1) n (Nat.succ_pos n)

/-- The digit string of a positive number does not start with zero. -/
theorem strNat_head (n : ℕ) (hn : n ≠ 0) (c : Char)
    (h : (strNat n).head? = some c) : c ≠ '0' :=
  natDigitsAux_head (n + 1) n hn (Nat.lt_succ_self n) c h

/-- Every character of a fractional digit expansion is a digit. -/
theorem fracDigits_digits : ∀ (fuel : ℕ) (r : ℚ) (c : Char),
    c ∈ fracDigits fuel r → c.isDigit = true := by
  intro fuel
  induction fuel with
  | zero => intro r c h; cases h
  | succ fuel ih =>
      intro r c h
      rw [fracDigits] at h
      split at h
      · cases h
      · rcases List.mem_cons.mp h with h | h
        · subst h; exact digitChar_isDigit _
        · exact ih _ c h

/-- A list of digits holds no decimal point. -/
theorem count_dot_digits (l : List Char) (h : ∀ c ∈ l, c.isDigit = true) :
    l.count '.' = 0 := by
  rw [List.count_eq_zero]
  intro hmem
  have := h '.' hmem
  simp [Char.isDigit] at this

/-- Lists whose head is not a zero digit carry no redundant leading zero. -/
theorem noLeadZero_of_head (d : Char) (rest : List Char) (hd : d ≠ '0') :
    noLeadZeroB (d :: rest) = true := by
  cases rest with
  | nil => rfl
  | cons b bs =>
      unfold noLeadZeroB
      simp [hd]

/-- A zero followed by a decimal point carries no redundant leading zero. -/
theorem noLeadZero_dot (a : Char) (rest : List Char) :
    noLeadZeroB (a :: '.' :: rest) = true := by
  unfold noLeadZeroB
  simp

/-- The decimal printer always produces a well-formed value: at most one
decimal point and no redundant leading zero. -/
theorem ValOK_ratToString (q : ℚ) : ValOK (ratToString q) = true := by
  unfold ratToString
  split
  · decide
  · set ip := (rFloorZ (rAbs q)).toNat with hip
    set fd := fracDigits 17
      (Rat.divInt ((rAbs q).num - rFloorZ (rAbs q) * ((rAbs q).den : ℤ)) ((rAbs q).den : ℤ))
      with hfd
    have hfdd : ∀ c ∈ fd, c.isDigit = true := fun c hc => fracDigits_digits _ _ c hc
    have hnd : ∀ c ∈ strNat ip, c.isDigit = true := fun c hc => strNat_digits ip c hc
    have hcount : ∀ (sg : List Char), sg.count '.' = 0 →
        (sg ++ strNat ip ++ (if fd = [] then [] else '.' :: fd)).count '.' ≤ 1 := by
      intro sg hsg
      rw [List.count_append, List.count_append, hsg, count_dot_digits _ hnd]
      split
      · simp
      · rw [List.count_cons]
        rw [count_dot_digits fd hfdd]
        simp
    have hshape : ∀ (sg : List Char), sg = [] ∨ sg = ['-'] →
        noLeadZeroB (sg ++ strNat ip ++ (if fd = [] then [] else '.' :: fd)) = true := by
      intro sg hsg
      rcases hsn : strNat ip with _ | ⟨d, ds⟩
      · exact absurd hsn (strNat_ne_nil ip)
      · rcases hsg with rfl | rfl
        · simp only [List.nil_append]
          by_cases hd0 : d = '0'
          · have hip0 : ip = 0 := by
              by_contra hne
              exact strNat_head ip hne d (by rw [hsn]; rfl) hd0
            rw [hip0] at hsn
            rw [strNat_zero] at hsn
            have hds : ds = [] := by
              have h2 := (List.cons.injEq d ds '0' []).mp hsn.symm
              exact h2.2
            subst hds
            subst hd0
            simp only [List.cons_append, List.nil_append]
            split
            · rfl
            · exact noLeadZero_dot '0' fd
          · simp only [List.cons_append]
            exact noLeadZero_of_head d _ hd0
        · simp only [List.cons_append, List.nil_append]
          exact noLeadZero_of_head '-' _ (by decide)
    unfold ValOK
    rw [Bool.and_eq_true]
    constructor
    · rw [decide_eq_true_iff]
      split
      · exact hcount ['-'] rfl
      · exact hcount [] rfl
    · split
      · exact hshape ['-'] (Or.inr rfl)
      · exact hshape [] (Or.inl rfl)

/-- Shape lemma: an optional minus sign, then a character, a decimal
point, and a dot-free body, is well-formed. -/
theorem ValOK_expShape (sg : List Char) (d : Char) (body : List Char)
    (hsg : sg = [] ∨ sg = ['-']) (hd : d ≠ '.') (hbody : '.' ∉ body) :
    ValOK (sg ++ d :: '.' :: body) = true := by
  unfold ValOK
  rw [Bool.and_eq_true]
  have hcb : body.count '.' = 0 := List.count_eq_zero.mpr hbody
  constructor
  · rw [decide_eq_true_iff]
    rcases hsg with rfl | rfl
    · simp [List.count_cons, hcb, hd]
    · simp [List.count_cons, List.count_append, hcb, hd]
  · rcases hsg with rfl | rfl
    · exact noLeadZero_dot d body
    · exact noLeadZero_of_head '-' _ (by decide)

/-- The exponential rendering is well-formed for an empty or minus sign. -/
theorem ValOK_expString (sg : List Char) (pr : ℤ × ℤ)
    (hsg : sg = [] ∨ sg = ['-']) : ValOK (expString sg pr) = true := by
  unfold expString
  rcases hds : strNat pr.1.toNat with _ | ⟨d, ds⟩
  · exact ValOK_nil
  · show ValOK ((sg ++ d :: '.' :: (ds ++ List.replicate (6 - ds.length) '0'))
        ++ 'e' :: (if pr.2 ≥ 0 then '+' :: strNat pr.2.toNat
                   else '-' :: strNat (-pr.2).toNat)) = true
    rw [List.append_assoc, List.cons_append, List.cons_append]
    apply ValOK_expShape sg d _ hsg
    · have hdd : d.isDigit = true := by
        apply strNat_digits pr.1.toNat d
        rw [hds]
        exact List.mem_cons.mpr (Or.inl rfl)
      intro hdot
      subst hdot
      simp [Char.isDigit] at hdd
    · intro hmem
      rcases List.mem_append.mp hmem with h | h
      · rcases List.mem_append.mp h with h | h
        · have hdd : ('.' : Char).isDigit = true := by
            apply strNat_digits pr.1.toNat '.'
            rw [hds]
            exact List.mem_cons.mpr (Or.inr h)
          simp [Char.isDigit] at hdd
        · have := List.eq_of_mem_replicate h
          cases this
      · rcases List.mem_cons.mp h with h | h
        · cases h
        · split at h <;>
          · rcases List.mem_cons.mp h with h | h
            · cases h
            · have hdd := strNat_digits _ '.' h
              simp [Char.isDigit] at hdd

/-- The exponential printer always produces a well-formed value. -/
theorem ValOK_toExponential6 (x : Option ℚ) : ValOK (toExponential6 x) = true := by
  rcases x with _ | q
  · decide
  · simp only [toExponential6]
    split
    · decide
    · apply ValOK_expString
      split
      · exact Or.inr rfl
      · exact Or.inl rfl

/-- The number printer always produces a well-formed value. -/
theorem ValOK_jsToString (x : Option ℚ) : ValOK (jsToString x) = true := by
  rcases x with _ | q
  · decide
  · exact ValOK_ratToString q

/-- The result formatter always produces a well-formed value. -/
theorem ValOK_formatResult (x : Option ℚ) : ValOK (formatResult x) = true := by
  show ValOK (if (jsToString x).length > 12 then toExponential6 x else jsToString x) = true
  split
  · exact ValOK_toExponential6 x
  · exact ValOK_jsToString x

/-- Unfolded reading of the strengthened invariant. -/
theorem BufOK_iff (s : CalcState) : BufOK s = true ↔
    (ValOK s.currentValue = true ∧ ∀ h ∈ s.history, ValOK h.result = true) := by
  unfold BufOK
  rw [Bool.and_eq_true, List.all_eq_true]

/-- Pushing a well-formed entry onto the capped history preserves
well-formedness of every stored result. -/
theorem capPush_ValOK (item : HistoryItem) (h : List HistoryItem)
    (hitem : ValOK item.result = true) (hh : ∀ x ∈ h, ValOK x.result = true) :
    ∀ x ∈ capPush item h, ValOK x.result = true := by
  intro x hx
  have hx1 : x ∈ (if (item :: h).length > 50 then (item :: h).dropLast
      else (item :: h)) := hx
  split at hx1
  · have hx2 := (List.dropLast_sublist (item :: h)).subset hx1
    rcases List.mem_cons.mp hx2 with rfl | hx2
    · exact hitem
    · exact hh x hx2
  · rcases List.mem_cons.mp hx1 with rfl | hx2
    · exact hitem
    · exact hh x hx2

/-- Digit entry with a single digit-or-dot character preserves the
invariant. -/
theorem BufOK_inputDigit (c : Char) (s : CalcState)
    (hc : c.isDigit = true ∨ c = '.') (h : BufOK s = true) :
    BufOK (inputDigit [c] s) = true := by
  rw [BufOK_iff] at h ⊢
  obtain ⟨hval, hhist⟩ := h
  have hh2 : ∀ x ∈ (inputDigit [c] s).history, ValOK x.result = true := by
    rw [inputDigit_history]
    exact hhist
  refine ⟨?_, hh2⟩
  unfold inputDigit
  split
  · exact hval
  split
  · exact ValOK_single c
  split
  · exact ValOK_single c
  split
  · exact hval
  rename_i h1 h2 h3 h4
  · apply ValOK_append _ _ hval
    · intro hdot
      have : ¬('.' ∈ s.currentValue) := by
        intro hin
        exact h4 ⟨by rw [hdot], hin⟩
      exact this
    · intro h0
      by_contra hne
      rcases hc with hd | hd
      · exact h3 ⟨h0, by
          intro heq
          have := (List.cons.injEq c [] '.' []).mp heq
          exact hne this.1⟩
      · exact hne hd

/-- The literal error marker is a well-formed value. -/
theorem ValOK_Error : ValOK "Error".toList = true := by decide

/-- Chain evaluation leaves the buffer well-formed. -/
theorem ValOK_calculateIntermediate (s : CalcState) (h : ValOK s.currentValue = true) :
    ValOK (calculateIntermediate s).currentValue = true := by
  unfold calculateIntermediate
  rcases s.previousValue with _ | pv <;> rcases s.operation with _ | op
  · exact h
  · exact h
  · exact h
  · cases op
    · exact ValOK_formatResult _
    · exact ValOK_formatResult _
    · exact ValOK_formatResult _
    · dsimp only
      split
      · exact ValOK_Error
      · exact ValOK_formatResult _

/-- Selecting an operation preserves the invariant. -/
theorem BufOK_setOperation (op : Operation) (s : CalcState) (h : BufOK s = true) :
    BufOK (setOperation op s) = true := by
  rw [BufOK_iff] at h ⊢
  obtain ⟨hval, hhist⟩ := h
  have hh2 : (stepAction (.setOperation op) s).history = s.history :=
    stepAction_history _ s (by intro hc; cases hc)
  constructor
  · unfold setOperation
    simp only
    split <;> split
    · exact ValOK_calculateIntermediate _ hval
    · exact hval
    · exact ValOK_calculateIntermediate _ hval
    · exact hval
  · intro x hx
    apply hhist
    rw [← hh2]
    exact hx

/-- A `calculate` call preserves the invariant. -/
theorem BufOK_calculate (s : CalcState) (h : BufOK s = true) :
    BufOK (calculate s) = true := by
  rw [BufOK_iff] at h ⊢
  obtain ⟨hval, hhist⟩ := h
  unfold calculate
  rcases s.previousValue with _ | pv <;> rcases s.operation with _ | op
  · exact ⟨hval, hhist⟩
  · exact ⟨hval, hhist⟩
  · exact ⟨hval, hhist⟩
  · dsimp only
    split
    · exact ⟨hval, capPush_ValOK _ _ hval hhist⟩
    · cases op
      · exact ⟨ValOK_formatResult _, capPush_ValOK _ _ (ValOK_formatResult _) hhist⟩
      · exact ⟨ValOK_formatResult _, capPush_ValOK _ _ (ValOK_formatResult _) hhist⟩
      · exact ⟨ValOK_formatResult _, capPush_ValOK _ _ (ValOK_formatResult _) hhist⟩
      · dsimp only
        split
        · exact ⟨ValOK_Error, hhist⟩
        · exact ⟨ValOK_formatResult _, capPush_ValOK _ _ (ValOK_formatResult _) hhist⟩

/-- Every well-formed public action preserves the strengthened invariant. -/
theorem stepAction_BufOK (a : CalcAction) (s : CalcState)
    (hwf : wfAction a = true) (h : BufOK s = true) :
    BufOK (stepAction a s) = true := by
  have hval := (BufOK_iff s |>.mp h).1
  have hhist := (BufOK_iff s |>.mp h).2
  have hhkeep : ∀ a2 : CalcAction, a2 ≠ .calculate →
      ∀ x ∈ (stepAction a2 s).history, ValOK x.result = true := by
    intro a2 hne x hx
    exact hhist x (by rwa [stepAction_history a2 s hne] at hx)
  cases a with
  | inputDigit d =>
      unfold wfAction at hwf
      rcases d with _ | ⟨c, rest⟩
      · cases hwf
      · rcases rest with _ | ⟨c2, rest2⟩
        · rcases Bool.or_eq_true _ _ |>.mp hwf with hc | hc
          · exact BufOK_inputDigit c s (Or.inl hc) h
          · exact BufOK_inputDigit c s (Or.inr (by simpa using hc)) h
        · cases hwf
  | inputDot =>
      rw [BufOK_iff]
      refine ⟨?_, hhkeep _ (by intro hc; cases hc)⟩
      show ValOK (inputDot s).currentValue = true
      unfold inputDot
      split
      · rename_i hdot
        exact ValOK_append _ _ hval (fun _ => hdot) (fun _ => rfl)
      · exact hval
  | setOperation op => exact BufOK_setOperation op s h
  | calculate => exact BufOK_calculate s h
  | clear =>
      rw [BufOK_iff]
      exact ⟨ValOK_single '0', hhkeep _ (by intro hc; cases hc)⟩
  | deleteChar =>
      rw [BufOK_iff]
      refine ⟨?_, hhkeep _ (by intro hc; cases hc)⟩
      show ValOK (deleteChar s).currentValue = true
      unfold deleteChar
      split
      · exact hval
      split
      · exact ValOK_single '0'
      · exact ValOK_dropLast _ hval
  | toggleSign =>
      rw [BufOK_iff]
      refine ⟨?_, hhkeep _ (by intro hc; cases hc)⟩
      show ValOK (toggleSign s).currentValue = true
      unfold toggleSign
      dsimp only
      split
      · exact hval
      · exact ValOK_jsToString _
  | percentage =>
      rw [BufOK_iff]
      exact ⟨ValOK_jsToString _, hhkeep _ (by intro hc; cases hc)⟩
  | setLabel t l c =>
      rw [BufOK_iff]
      refine ⟨?_, hhkeep _ (by intro hc; cases hc)⟩
      cases t
      · exact hval
      · exact hval
  | setUnit t u =>
      rw [BufOK_iff]
      refine ⟨?_, hhkeep _ (by intro hc; cases hc)⟩
      cases t
      · exact hval
      · exact hval
  | loadFromHistory i =>
      rw [BufOK_iff]
      refine ⟨?_, hhkeep _ (by intro hc; cases hc)⟩
      show ValOK (loadFromHistory i s).currentValue = true
      unfold loadFromHistory
      rcases hget : historyGet s.history i with _ | item
      · exact hval
      · have hmem : item ∈ s.history := by
          unfold historyGet at hget
          split at hget
          · injection hget with hitem
            rw [← hitem]
            exact List.get_mem _ _ _
          · cases hget
        exact hhist item hmem
  | saveVariable l v u c n =>
      rw [BufOK_iff]
      exact ⟨hval, hhkeep _ (by intro hc; cases hc)⟩
  | deleteVariable l =>
      rw [BufOK_iff]
      exact ⟨hval, hhkeep _ (by intro hc; cases hc)⟩
  | inputVariable v =>
      rw [BufOK_iff]
      refine ⟨?_, hhkeep _ (by intro hc; cases hc)⟩
      unfold wfAction at hwf
      exact hwf

/-- The strengthened invariant holds along every well-formed action run. -/
theorem runFrom_BufOK (acts : List CalcAction) :
    ∀ s : CalcState, BufOK s = true → (∀ a ∈ acts, wfAction a = true) →
      BufOK (runFrom s acts) = true := by
  induction acts with
  | nil => intro s h _; exact h
  | cons a acts ih =>
      intro s h hwf
      have h1 := stepAction_BufOK a s (hwf a (List.mem_cons.mpr (Or.inl rfl))) h
      exact ih (stepAction a s) h1 (fun b hb => hwf b (List.mem_cons.mpr (Or.inr hb)))

/-- C9 as amended: in every state reachable from the initial state by a
sequence of public actions whose digit entries are single digit-or-dot
characters and whose `inputVariable` arguments carry well-formed value
text, the buffer value contains at most one decimal point and has no
redundant leading zero. -/
theorem c9_buffer_invariant (acts : List CalcAction)
    (hwf : ∀ a ∈ acts, wfAction a = true) :
    (run acts).currentValue.count '.' ≤ 1 ∧
    noLeadZeroB (run acts).currentValue = true := by
  have h := runFrom_BufOK acts initState (by decide) hwf
  have hv := (BufOK_iff _ |>.mp h).1
  unfold ValOK at hv
  rw [Bool.and_eq_true] at hv
  exact ⟨of_decide_eq_true hv.1, hv.2⟩

/-- Witness for the amended C9 on a concrete digit-and-dot entry run. -/
theorem c9_buffer_invariant_witness :
    (run [.inputDigit ['1'], .inputDot, .inputDigit ['5']]).currentValue.count '.' ≤ 1 ∧
    noLeadZeroB (run [.inputDigit ['1'], .inputDot, .inputDigit ['5']]).currentValue = true :=
  c9_buffer_invariant [.inputDigit ['1'], .inputDot, .inputDigit ['5']] (by decide)

/-! ## Claims C1 and C2: the spec-modelled evaluator and machine -/

namespace SpecModel

/-- Emitted tokens followed by pending operators give the full postfix
spelling. -/
theorem emit_pend : ∀ e : AExp, emitA e ++ pend e = rpnA e := by
  intro e
  induction e with
  | lit q => rfl
  | grouped i ih => simp [emitA, pend, rpnA]
  | bin l o r ihl ihr =>
      show rpnA l ++ emitA r ++ (pend r ++ [GToken.op o]) = rpnA l ++ rpnA r ++ [GToken.op o]
      rw [List.append_assoc, ← List.append_assoc (emitA r), ihr, ← List.append_assoc]

/-- Pending operators of a canonical expression are operators binding at
least as tightly as the root. -/
theorem pendOps : ∀ e : AExp, canonB e = true →
    ∀ t ∈ pend e, ∃ o, t = GToken.op o ∧ rootPrec e ≤ prec o := by
  intro e
  induction e with
  | lit q => intro _ t ht; cases ht
  | grouped i ih => intro _ t ht; cases ht
  | bin l o r ihl ihr =>
      intro hc t ht
      unfold canonB at hc
      rw [Bool.and_eq_true, Bool.and_eq_true, Bool.and_eq_true] at hc
      obtain ⟨⟨⟨hcl, hcr⟩, hpl⟩, hpr⟩ := hc
      rw [decide_eq_true_iff] at hpl hpr
      rcases List.mem_append.mp ht with ht | ht
      · rcases ihr hcr t ht with ⟨o2, rfl, ho2⟩
        exact ⟨o2, rfl, le_trans (le_of_lt hpr) ho2⟩
      · rcases List.mem_singleton.mp ht with rfl
        exact ⟨o, rfl, le_refl _⟩

/-- Safety is monotone in the incoming precedence. -/
theorem stackSafe_mono (st : List GToken) (p q : ℕ) (hpq : p ≤ q)
    (h : stackSafe st p) : stackSafe st q := by
  cases st with
  | nil => trivial
  | cons t ts =>
      cases t with
      | num v => exact h
      | op o => exact lt_of_lt_of_le h hpq
      | lparen => trivial
      | rparen => exact h

/-- Popping at precedence `p` removes exactly a block of operators binding
at least as tightly, stopping at a safe stack. -/
theorem popGE_spec (p : ℕ) : ∀ (L st : List GToken),
    (∀ t ∈ L, ∃ o, t = GToken.op o ∧ p ≤ prec o) → stackSafe st p →
    popGE p (L ++ st) = (L, st) := by
  intro L
  induction L with
  | nil =>
      intro st _ hsafe
      cases st with
      | nil => rfl
      | cons t ts =>
          cases t with
          | num v => exact absurd hsafe id
          | op o =>
              show popGE p (GToken.op o :: ts) = ([], GToken.op o :: ts)
              unfold popGE
              rw [if_neg (not_le_of_lt hsafe)]
          | lparen => rfl
          | rparen => exact absurd hsafe id
  | cons t L ih =>
      intro st hops hsafe
      rcases hops t (List.mem_cons.mpr (Or.inl rfl)) with ⟨o, rfl, hpo⟩
      show popGE p (GToken.op o :: (L ++ st)) = (GToken.op o :: L, st)
      unfold popGE
      rw [if_pos hpo]
      rw [ih st (fun u hu => hops u (List.mem_cons.mpr (Or.inr hu))) hsafe]

/-- Popping to a grouping-open removes exactly the operators above it. -/
theorem popToParen_spec : ∀ (L st : List GToken),
    (∀ t ∈ L, ∃ o, t = GToken.op o) →
    popToParen (L ++ GToken.lparen :: st) = (L, st) := by
  intro L
  induction L with
  | nil => intro st _; rfl
  | cons t L ih =>
      intro st hops
      rcases hops t (List.mem_cons.mpr (Or.inl rfl)) with ⟨o, rfl⟩
      show popToParen (GToken.op o :: (L ++ GToken.lparen :: st)) = (GToken.op o :: L, st)
      unfold popToParen
      rw [ih st (fun u hu => hops u (List.mem_cons.mpr (Or.inr hu)))]

/-- Step equation of the scan on an operator token. -/
theorem shuntAux_op (o : Operation) (ts stack out : List GToken) :
    shuntAux (GToken.op o :: ts) stack out =
      shuntAux ts (GToken.op o :: (popGE (prec o) stack).2)
        (out ++ (popGE (prec o) stack).1) := rfl

/-- Step equation of the scan on a close-grouping token. -/
theorem shuntAux_rparen (ts stack out : List GToken) :
    shuntAux (GToken.rparen :: ts) stack out =
      shuntAux ts (popToParen stack).2 (out ++ (popToParen stack).1) := rfl

/-- Main shunting-yard scan lemma: scanning the infix tokens of a
canonical expression over a safe stack emits its queue tokens and leaves
its pending operators on the stack. -/
theorem shunt_scan : ∀ (e : AExp), canonB e = true →
    ∀ (rest st out : List GToken), stackSafe st (rootPrec e) →
    shuntAux (flatA e ++ rest) st out = shuntAux rest (pend e ++ st) (out ++ emitA e) := by
  intro e
  induction e with
  | lit q =>
      intro _ rest st out _
      rfl
  | grouped i ih =>
      intro hc rest st out hsafe
      show shuntAux (GToken.lparen :: (flatA i ++ [GToken.rparen]) ++ rest) st out = _
      rw [List.cons_append, List.append_assoc]
      show shuntAux (flatA i ++ ([GToken.rparen] ++ rest)) (GToken.lparen :: st) out = _
      rw [ih hc ([GToken.rparen] ++ rest) (GToken.lparen :: st) out trivial]
      have hpops : ∀ t ∈ pend i, ∃ o, t = GToken.op o := by
        intro t ht
        rcases pendOps i hc t ht with ⟨o, rfl, -⟩
        exact ⟨o, rfl⟩
      show shuntAux (GToken.rparen :: rest) (pend i ++ GToken.lparen :: st) (out ++ emitA i) = _
      rw [shuntAux_rparen, popToParen_spec (pend i) st hpops]
      show shuntAux rest st (out ++ emitA i ++ pend i) = shuntAux rest ([] ++ st) (out ++ rpnA i)
      rw [List.append_assoc, emit_pend, List.nil_append]
  | bin l o r ihl ihr =>
      intro hc rest st out hsafe
      unfold canonB at hc
      rw [Bool.and_eq_true, Bool.and_eq_true, Bool.and_eq_true] at hc
      obtain ⟨⟨⟨hcl, hcr⟩, hpl⟩, hpr⟩ := hc
      rw [decide_eq_true_iff] at hpl hpr
      show shuntAux ((flatA l ++ GToken.op o :: flatA r) ++ rest) st out = _
      rw [List.append_assoc, List.cons_append]
      rw [ihl hcl (GToken.op o :: (flatA r ++ rest)) st out
        (stackSafe_mono st _ _ hpl hsafe)]
      have hpops : ∀ t ∈ pend l, ∃ o2, t = GToken.op o2 ∧ prec o ≤ prec o2 := by
        intro t ht
        rcases pendOps l hcl t ht with ⟨o2, rfl, ho2⟩
        exact ⟨o2, rfl, le_trans hpl ho2⟩
      rw [shuntAux_op, popGE_spec (prec o) (pend l) st hpops hsafe]
      show shuntAux (flatA r ++ rest) (GToken.op o :: st) (out ++ emitA l ++ pend l) = _
      rw [List.append_assoc out (emitA l), emit_pend]
      rw [ihr hcr rest (GToken.op o :: st) (out ++ rpnA l) hpr]
      show shuntAux rest (pend r ++ GToken.op o :: st) (out ++ rpnA l ++ emitA r) =
        shuntAux rest ((pend r ++ [GToken.op o]) ++ st) (out ++ (rpnA l ++ emitA r))
      rw [List.append_assoc (pend r) [GToken.op o] st, List.singleton_append,
        List.append_assoc out (rpnA l) (emitA r)]

/-- Scanning the full infix spelling of a canonical expression yields its
postfix spelling. -/
theorem shunt_flatA (e : AExp) (hc : canonB e = true) :
    shuntAux (flatA e) [] [] = rpnA e := by
  have h := shunt_scan e hc [] [] [] trivial
  rw [List.append_nil] at h
  rw [h]
  show (List.nil ++ emitA e) ++ (pend e ++ []).filter _ = rpnA e
  rw [List.append_nil, List.nil_append]
  have hfilter : (pend e).filter
      (fun t => match t with | GToken.op _ => true | _ => false) = pend e := by
    rw [List.filter_eq_self]
    intro t ht
    rcases pendOps e hc t ht with ⟨o, rfl, -⟩
    rfl
  rw [hfilter, emit_pend]

/-- RPN evaluation of a postfix spelling followed by further queue tokens
computes the reference semantics and continues with the value pushed. -/
theorem evalRPN_rpn : ∀ (e : AExp) (q : List GToken) (stk : List ℚ),
    evalRPN (rpnA e ++ q) stk =
      match evalA e with
      | some v => evalRPN q (v :: stk)
      | none => none := by
  intro e
  induction e with
  | lit v => intro q stk; rfl
  | grouped i ih => intro q stk; exact ih q stk
  | bin l o r ihl ihr =>
      intro q stk
      show evalRPN ((rpnA l ++ rpnA r ++ [GToken.op o]) ++ q) stk = _
      rw [List.append_assoc, List.append_assoc, ihl]
      rcases hl : evalA l with _ | a
      · simp [evalA, hl]
      · show evalRPN (rpnA r ++ ([GToken.op o] ++ q)) (a :: stk) = _
        rw [ihr]
        rcases hr : evalA r with _ | b
        · simp [evalA, hl, hr]
        · simp only [evalA, hl, hr]
          show evalRPN (GToken.op o :: q) (b :: a :: stk) = _
          show (match applyOp o a b with
                | some v => evalRPN q (v :: stk)
                | none => none) = _
          rfl

/-- Correctness of the spec-modelled evaluator on canonical expressions:
shunting-yard followed by RPN evaluation computes the reference infix
semantics, including its division-by-zero failures. -/
theorem shuntEval_correct (e : AExp) (hc : canonB e = true) :
    shuntEval (flatA e) = evalA e := by
  unfold shuntEval
  rw [shunt_flatA e hc]
  have h := evalRPN_rpn e [] []
  rw [List.append_nil] at h
  rw [h]
  rcases evalA e with _ | v
  · rfl
  · rfl

end SpecModel

/-- C1: the spec-modelled evaluator respects standard infix precedence and
left associativity — on the infix spelling of every canonical expression it
computes the reference tree semantics — and, on the spec-modelled input
machine, entering the digits and operators of two plus three times four and
pressing calculate displays fourteen, while the parenthesised variant
displays twenty. -/
theorem c1_precedence :
    (∀ e : SpecModel.AExp, SpecModel.canonB e = true →
      SpecModel.shuntEval (SpecModel.flatA e) = SpecModel.evalA e) ∧
    (SpecModel.mrun [.digit '2', .op .add, .digit '3', .op .mul, .digit '4',
      .calcAct]).buffer = ['1', '4'] ∧
    (SpecModel.mrun [.lpar, .digit '2', .op .add, .digit '3', .rpar, .op .mul,
      .digit '4', .calcAct]).buffer = ['2', '0'] := by
  exact ⟨fun e hc => SpecModel.shuntEval_correct e hc, by decide, by decide⟩

/-- Witness for C1 at the canonical tree of two plus three times four. -/
theorem c1_precedence_witness :
    SpecModel.canonB (SpecModel.AExp.bin (SpecModel.AExp.lit 2) Operation.add
      (SpecModel.AExp.bin (SpecModel.AExp.lit 3) Operation.mul
        (SpecModel.AExp.lit 4))) = true ∧
    SpecModel.shuntEval (SpecModel.flatA (SpecModel.AExp.bin (SpecModel.AExp.lit 2)
      Operation.add (SpecModel.AExp.bin (SpecModel.AExp.lit 3) Operation.mul
        (SpecModel.AExp.lit 4)))) =
      SpecModel.evalA (SpecModel.AExp.bin (SpecModel.AExp.lit 2) Operation.add
        (SpecModel.AExp.bin (SpecModel.AExp.lit 3) Operation.mul
          (SpecModel.AExp.lit 4))) :=
  ⟨by decide,
   c1_precedence.1 (SpecModel.AExp.bin (SpecModel.AExp.lit 2) Operation.add
     (SpecModel.AExp.bin (SpecModel.AExp.lit 3) Operation.mul
       (SpecModel.AExp.lit 4))) (by decide)⟩

/-- C2: on the spec-modelled machine, typing two, open parenthesis, three,
close parenthesis commits the tokens two, times, open, three, close — the
times operator is committed implicitly because the buffer holds a typed,
non-reset, non-zero value — and a subsequent calculate displays six. -/
theorem c2_implicit_multiplication :
    (SpecModel.mrun [.digit '2', .lpar, .digit '3', .rpar]).committed =
      [SpecModel.GToken.num 2, SpecModel.GToken.op Operation.mul,
       SpecModel.GToken.lparen, SpecModel.GToken.num 3, SpecModel.GToken.rparen] ∧
    (SpecModel.mrun [.digit '2', .lpar, .digit '3', .rpar, .calcAct]).buffer = ['6'] := by
  exact ⟨by decide, by decide⟩
